import Mathlib

/-!
# Verification of gemini-code-flow core utilities

Shallow embedding of the rate limiter, input validator, path security
helper (all from `src/utils`), and of the task queue and memory manager
(whose implementations are not in the source tree; they are modelled from
the specification, as indicated in the doc comments of those sections).
Machine integers and JS `number` timestamps are modelled as `Nat`:
every quantity involved (epoch milliseconds, counts, lengths) is a
non-negative integer well below 2^53, where JS arithmetic is exact.
-/

/-- Lowercase every character (models JS `toLowerCase` on the ASCII
strings involved). -/
def lowerList (s : List Char) : List Char := s.map Char.toLower

/-- Substring containment, models JS `String.includes`: some suffix of
`s` has `pat` as a prefix. -/
def containsSub (s pat : List Char) : Bool :=
  pat.isPrefixOf s ||
    match s with
    | [] => false
    | _ :: t => containsSub t pat

/-! ## Rate limiter (`src/utils/rate-limiter.ts`, class `RateLimiter`) -/

namespace RateLimiter

/-- Configuration of a `RateLimiter` (constructor argument, with the
defaults `maxRetries = 3`, `retryDelayMs = 1000` already applied). -/
structure RLConfig where
  maxRequests : Nat
  windowMs : Nat
  maxRetries : Nat
  retryDelayMs : Nat
  deriving Repr, DecidableEq

/-- The hard-coded `cleanupInterval` field (10 s). -/
def cleanupInterval : Nat := 10000

/-- Mutable state of a `RateLimiter`: the `requests` timestamp buffer and
`lastCleanup`.  A fresh instance has `requests = []`, `lastCleanup = 0`. -/
structure RLState where
  requests : List Nat
  lastCleanup : Nat
  deriving Repr, DecidableEq

/-- Initial state of a freshly constructed `RateLimiter`. -/
def initState : RLState := ⟨[], 0⟩

/-- The quick-cleanup loop of `checkLimit` (lines 40-42): repeatedly
shift the head while `now - requests[0] >= windowMs`, i.e. while
`s + windowMs ≤ now`. -/
def quickPurge (windowMs now : Nat) (l : List Nat) : List Nat :=
  l.dropWhile (fun s => decide (s + windowMs ≤ now))

/-- The full cleanup `cleanupOldRequests` (lines 65-82): splice off the
initial segment of timestamps with `s < now - windowMs`, i.e.
`s + windowMs < now`. -/
def cleanupOldRequests (windowMs now : Nat) (l : List Nat) : List Nat :=
  l.dropWhile (fun s => decide (s + windowMs < now))

/-- The cleanup phase of one `checkLimit` iteration (lines 34-43): the
full `cleanupOldRequests` when more than `cleanupInterval` ms have
passed since `lastCleanup` (JS `now - this.lastCleanup >
this.cleanupInterval`), the quick shift loop otherwise. -/
def cleanedRequests (cfg : RLConfig) (st : RLState) (now : Nat) : List Nat :=
  if st.lastCleanup + cleanupInterval < now
  then cleanupOldRequests cfg.windowMs now st.requests
  else quickPurge cfg.windowMs now st.requests

/-- The `lastCleanup` value after the cleanup phase: updated to `now`
exactly when the full cleanup ran. -/
def newLastCleanup (st : RLState) (now : Nat) : Nat :=
  if st.lastCleanup + cleanupInterval < now then now else st.lastCleanup

/-- One non-suspending iteration of `checkLimit` at clock value `now`
(lines 31-60).  The result is the updated state together with
`some now` when this iteration appended `now` to the buffer, or `none`
when it decided to suspend until `oldest + windowMs` and re-check (the
re-check is a further iteration at a later clock value).  The branch for
an empty buffer with `maxRequests ≤ 0` mirrors JavaScript: there
`requests[0]` is `undefined`, the computed `waitTime` is `NaN`, the
comparison `NaN > 0` is false, and the code falls through to the push. -/
def checkLimitStep (cfg : RLConfig) (st : RLState) (now : Nat) :
    RLState × Option Nat :=
  if cfg.maxRequests ≤ (cleanedRequests cfg st now).length then
    match cleanedRequests cfg st now with
    | [] =>
      (⟨cleanedRequests cfg st now ++ [now], newLastCleanup st now⟩, some now)
    | oldest :: _ =>
      if now < oldest + cfg.windowMs then
        (⟨cleanedRequests cfg st now, newLastCleanup st now⟩, none)
      else
        (⟨cleanedRequests cfg st now ++ [now], newLastCleanup st now⟩, some now)
  else
    (⟨cleanedRequests cfg st now ++ [now], newLastCleanup st now⟩, some now)

/-- Run a sequence of `checkLimit` iterations at the given clock values,
returning the final state and the list of registered timestamps.  Any
real execution of sequential `checkLimit`/`execute` calls (including the
internal suspend-and-re-check recursion, whose wake-ups happen at later
clock values) is such a sequence with non-decreasing clock values. -/
def runTrace (cfg : RLConfig) : RLState → List Nat → RLState × List Nat
  | st, [] => (st, [])
  | st, t :: ts =>
    let s := checkLimitStep cfg st t
    let r := runTrace cfg s.1 ts
    (r.1, s.2.toList ++ r.2)

/-- Number of registered timestamps lying in the half-open sliding window
`[t, t + windowMs)`. -/
def windowCount (windowMs t : Nat) (h : List Nat) : Nat :=
  (h.filter (fun s => decide (t ≤ s ∧ s < t + windowMs))).length

/-- The sliding-window invariant: no window of width `windowMs` ever
contains more than `maxRequests` registered timestamps. -/
def slidingWindowBound (cfg : RLConfig) (h : List Nat) : Prop :=
  ∀ t, windowCount cfg.windowMs t h ≤ cfg.maxRequests

/-- One complete `checkLimit` call starting at clock value `now`:
iterate the non-suspending step, advancing the clock to
`oldest + windowMs` at each suspension (the earliest legal wake-up
requested by the source's `delay(waitTime)`), with `fuel` bounding the
iterations.  Returns the final state and the registrations made during
the call. -/
def checkLimitRun (cfg : RLConfig) :
    Nat → RLState → Nat → Option (RLState × List Nat)
  | 0, _, _ => none
  | fuel + 1, st, now =>
    match checkLimitStep cfg st now with
    | (st', some r) => some (st', [r])
    | (st', none) =>
      match st'.requests with
      | [] => none
      | o :: _ => checkLimitRun cfg fuel st' (o + cfg.windowMs)

/-- Inductive invariant tying a rate-limiter state to the full history
of registrations: the buffer is a suffix of the history with only
expired timestamps purged, it is sorted and bounded by the time `tl` of
the last iteration, the history satisfies the sliding-window bound, and
the buffer overflows `maxRequests` by at most one entry — and then only
right after a full-cleanup boundary push, which leaves `lastCleanup =
tl` and an expired witness in the buffer. -/
structure RLInv (cfg : RLConfig) (st : RLState) (hist : List Nat)
    (tl : Nat) : Prop where
  purged : ∃ p, hist = p ++ st.requests ∧ ∀ s ∈ p, s + cfg.windowMs ≤ tl
  sorted : st.requests.Pairwise (· ≤ ·)
  ubound : ∀ s ∈ st.requests, s ≤ tl
  lcle : st.lastCleanup ≤ tl
  window : slidingWindowBound cfg hist
  oclen : st.requests.length ≤ cfg.maxRequests + 1
  ocover : st.requests.length = cfg.maxRequests + 1 →
    st.lastCleanup = tl ∧ ∃ b ∈ st.requests, b + cfg.windowMs ≤ tl

/-- A thrown JavaScript value: either an `Error` instance carrying a
message, or any non-`Error` value. -/
inductive JSError where
  | errObj (message : List Char)
  | nonError
  deriving Repr, DecidableEq

/-- Classification `isRateLimitError` (rate-limiter lines 109-120): an
`Error` whose lowercased message contains one of the four markers. -/
def isRateLimitError : JSError → Bool
  | .errObj msg =>
    let m := lowerList msg
    containsSub m ("rate limit".toList) ||
    containsSub m ("quota exceeded".toList) ||
    containsSub m ("429".toList) ||
    containsSub m ("too many requests".toList)
  | .nonError => false

/-- Retry loop of `RateLimiter.execute` (lines 87-104).  The attempt at
recursion depth `retryCount` observes outcome `fn retryCount`; a
rate-limit-classified failure with `retryCount < maxRetries` waits
`retryDelayMs * 2 ^ retryCount` and recurses with `retryCount + 1`.  The
fuel argument `k` carries `maxRetries - retryCount`, so the source guard
`retryCount < maxRetries` is exactly `k ≠ 0`; this makes the recursion
structural.  Each attempt is preceded by a `checkLimit` call (modelled
separately by `checkLimitStep`), which does not influence `fn`'s
outcome.  Returns the final result together with the number of attempts
made and the list of back-off delays waited. -/
def executeAux {α : Type} (cfg : RateLimiter.RLConfig)
    (fn : Nat → Except JSError α) (rc : Nat) :
    Nat → Except JSError α × Nat × List Nat
  | 0 =>
    (match fn rc with
     | .ok a => (.ok a, 1, [])
     | .error e => (.error e, 1, []))
  | k + 1 =>
    match fn rc with
    | .ok a => (.ok a, 1, [])
    | .error e =>
      if isRateLimitError e then
        let d := cfg.retryDelayMs * 2 ^ rc
        let r := executeAux cfg fn (rc + 1) k
        (r.1, r.2.1 + 1, d :: r.2.2)
      else (.error e, 1, [])

/-- Entry point of `RateLimiter.execute`: the public call starts at
`retryCount = 0`, so `maxRetries - retryCount = maxRetries`. -/
def executeRL {α : Type} (cfg : RateLimiter.RLConfig)
    (fn : Nat → Except JSError α) : Except JSError α × Nat × List Nat :=
  executeAux cfg fn 0 cfg.maxRetries

end RateLimiter

/-! ## Validator (`src/utils/rate-limiter.ts`, lines 157-393) -/

namespace Validator

/-- Whitespace as trimmed by `String.prototype.trim` and matched by the
regex class `\s` (restricted to the ASCII whitespace actually exercised
by the repository's inputs). -/
def jsWhitespace (c : Char) : Bool := c.isWhitespace

/-- JS `String.prototype.trim`: strip leading and trailing whitespace. -/
def jsTrim (s : List Char) : List Char :=
  ((s.dropWhile jsWhitespace).reverse.dropWhile jsWhitespace).reverse

/-- Word character of the regex metacharacter `\b` boundary:
`[A-Za-z0-9_]`. -/
def isWordChar (c : Char) : Bool := c.isAlpha || c.isDigit || c = '_'

/-- Run a matcher at every suffix of the input; models an unanchored
regex search. -/
def anySuffix (p : List Char → Bool) : List Char → Bool
  | [] => p []
  | c :: t => p (c :: t) || anySuffix p t

/-- Scanner for the tail of the `<script>` regex
`[^<]*(?:(?!<\/script>)<[^<]*)*<\/script>` on lowercased input: skip
characters until a `<` that starts `</script>`; any other `<` is
consumed and the scan continues; reaching the end means no match. -/
def scriptClose : List Char → Bool
  | [] => false
  | c :: t =>
    if c = '<' then
      ("</script>".toList.isPrefixOf (c :: t)) || scriptClose t
    else scriptClose t

/-- Matcher for `<script\b[^<]*(?:(?!<\/script>)<[^<]*)*<\/script>` at
the start of the (lowercased) input: the literal `<script`, a word
boundary, then a body closed by `</script>`. -/
def scriptAt (s : List Char) : Bool :=
  "<script".toList.isPrefixOf s &&
    (let rest := s.drop 7
     (match rest with
      | [] => true
      | c :: _ => !isWordChar c) && scriptClose rest)

/-- Matcher for `eval\s*\(` at the start of the (lowercased) input. -/
def evalAt (s : List Char) : Bool :=
  "eval".toList.isPrefixOf s &&
    (match (s.drop 4).dropWhile jsWhitespace with
     | '(' :: _ => true
     | _ => false)

/-- Matcher for `function\s*\(` at the start of the (lowercased)
input. -/
def functionAt (s : List Char) : Bool :=
  "function".toList.isPrefixOf s &&
    (match (s.drop 8).dropWhile jsWhitespace with
     | '(' :: _ => true
     | _ => false)

/-- The `suspiciousPatterns` loop of `validateTaskDescription` (lines
212-224): the trimmed description matches one of the five
case-insensitive injection regexes. -/
def hasSuspiciousPattern (s : List Char) : Bool :=
  anySuffix scriptAt (lowerList s) ||
  containsSub (lowerList s) ("javascript:".toList) ||
  containsSub (lowerList s) ("data:text/html".toList) ||
  anySuffix evalAt (lowerList s) ||
  anySuffix functionAt (lowerList s)

/-- Validation `Validator.validateTaskDescription` (lines 197-227).  A
JS falsy / non-string argument is modelled by the empty list (the only
falsy string); the `ValidationError` message is the error payload. -/
def validateTaskDescription (d : List Char) :
    Except (List Char) (List Char) :=
  if d = [] then
    .error ("Task description is required and must be a string".toList)
  else if (jsTrim d).length = 0 then
    .error ("Task description cannot be empty".toList)
  else if 10000 < (jsTrim d).length then
    .error ("Task description cannot exceed 10,000 characters".toList)
  else if hasSuspiciousPattern (jsTrim d) then
    .error ("Task description contains potentially unsafe content".toList)
  else
    .ok (jsTrim d)

/-- The double-quote character. -/
def dquote : Char := Char.ofNat 34

/-- The single-quote character. -/
def squote : Char := Char.ofNat 39

/-- Control characters removed by `sanitizeString`:
`[\x00-\x08\x0B\x0C\x0E-\x1F\x7F]`. -/
def isCtrlRemoved (c : Char) : Bool :=
  c.toNat ≤ 0x08 || c.toNat = 0x0B || c.toNat = 0x0C ||
  (0x0E ≤ c.toNat && c.toNat ≤ 0x1F) || c.toNat = 0x7F

/-- Entity replacement of `sanitizeString` for `[<>&"']`. -/
def escapeChar (c : Char) : List Char :=
  if c = '<' then "&lt;".toList
  else if c = '>' then "&gt;".toList
  else if c = '&' then "&amp;".toList
  else if c = dquote then "&quot;".toList
  else if c = squote then "&#x27;".toList
  else [c]

/-- Sanitizer `Validator.sanitizeString` (lines 370-389): falsy input
gives the empty string; otherwise slice to `maxLength`, drop the control
characters, then escape `[<>&"']` to HTML entities. -/
def sanitizeString (s : List Char) (maxLength : Nat) : List Char :=
  if s = [] then []
  else ((s.take maxLength).filter (fun c => !isCtrlRemoved c)).flatMap escapeChar

/-- Holding at the positions of the sanitizer output where an ampersand
occurs: the position begins one of the five inserted HTML entities, so
the ampersand is not a raw occurrence. -/
def startsEntity (s : List Char) : Prop :=
  "&lt;".toList <+: s ∨ "&gt;".toList <+: s ∨ "&amp;".toList <+: s ∨
  "&quot;".toList <+: s ∨ "&#x27;".toList <+: s

end Validator

/-! ## Path security (`src/utils/path-security.ts`, class `PathSecurity`) -/

namespace PathSecurity

/-- Interface of the Node `path` module (an external collaborator; the
spec treats filesystem and path primitives as interface-only).  The
model is parametric in its behaviour. -/
structure NodePath where
  sep : Char
  normalizeFn : List Char → List Char
  resolveFn : List Char → List Char → List Char
  extnameFn : List Char → List Char

/-- Interface of the `fs-extra` calls used by `resolveSafePath`:
`realpath` (`none` models a thrown error), `stat` (`none` models a
thrown error, otherwise `(isFile, size)`), and the two `access`
probes. -/
structure FsOracle where
  realpathFn : List Char → Option (List Char)
  statFn : List Char → Option (Bool × Nat)
  accessReadFn : List Char → Bool
  accessWriteFn : List Char → Bool

/-- Options of `resolveSafePath` with the source defaults already
applied (`mustExist = true`, `maxSize = 10 MiB`,
`requireReadable = true`, `requireWritable = false`,
`allowedExtensions` absent = `none`). -/
structure SafePathOptions where
  mustExist : Bool
  maxSize : Nat
  allowedExtensions : Option (List (List Char))
  requireReadable : Bool
  requireWritable : Bool

/-- Failure modes: a raised `PathSecurityError` with its message, or a
non-`PathSecurityError` exception escaping (only possible when
`fs.realpath(baseDir)` throws inside the catch handler). -/
inductive PathFailure where
  | pse (message : List Char)
  | otherErr
  deriving Repr, DecidableEq

/-- Normalization of an extension entry inside the `allowedExtensions`
check: lowercase and ensure a leading dot. -/
def normalizeExt (e : List Char) : List Char :=
  let le := lowerList e
  match le with
  | '.' :: _ => le
  | _ => '.' :: le

/-- The `mustExist` block of `resolveSafePath` (lines 72-131): stat the
real path, require a regular file, apply the size cap (JS
`if (maxSize && stats.size > maxSize)`, where `maxSize = 0` is falsy),
the extension allow-list, and the requested access probes. -/
def existingFileChecks (np : NodePath) (fs : FsOracle)
    (realPath : List Char) (opts : SafePathOptions) :
    Except PathFailure (List Char) :=
  match fs.statFn realPath with
  | none => .error (.pse ("Cannot access file".toList))
  | some (isFile, size) =>
    if !isFile then .error (.pse ("Path is not a regular file".toList))
    else if opts.maxSize ≠ 0 && decide (opts.maxSize < size) then
      .error (.pse ("File too large".toList))
    else
      let extOk :=
        match opts.allowedExtensions with
        | none => true
        | some exts =>
          if exts.isEmpty then true
          else (exts.map normalizeExt).contains (lowerList (np.extnameFn realPath))
      if !extOk then .error (.pse ("File extension not allowed".toList))
      else if opts.requireReadable && !fs.accessReadFn realPath then
        .error (.pse ("File not readable".toList))
      else if opts.requireWritable && !fs.accessWriteFn realPath then
        .error (.pse ("File not writable".toList))
      else .ok realPath

/-- Containment guard and existing-file checks of `resolveSafePath`
(lines 64-133): the real path must equal the real base directory or
start with it followed by the separator, otherwise a
`PathSecurityError` is raised. -/
def containmentChecks (np : NodePath) (fs : FsOracle)
    (realBaseDir realPath : List Char) (opts : SafePathOptions) :
    Except PathFailure (List Char) :=
  if !((realBaseDir ++ [np.sep]).isPrefixOf realPath) && !(realPath = realBaseDir : Bool) then
    .error (.pse ("Path traversal attempt detected".toList))
  else if opts.mustExist then existingFileChecks np fs realPath opts
  else .ok realPath

/-- Embedding of `PathSecurity.resolveSafePath` (lines 22-134).  A falsy
or non-string `inputPath` is modelled by the empty list.  The try/catch
around the two `realpath` calls is translated case by case: a failure
with `mustExist` raises `PathSecurityError`; without `mustExist` the
resolved path is used verbatim and `realpath(baseDir)` is retried (a
second failure escapes as a non-`PathSecurityError` exception). -/
def resolveSafePath (np : NodePath) (fs : FsOracle)
    (inputPath baseDir : List Char) (opts : SafePathOptions) :
    Except PathFailure (List Char) :=
  if inputPath = [] then
    .error (.pse ("Path must be a non-empty string".toList))
  else
    let normalizedPath := np.normalizeFn inputPath
    let resolvedPath := np.resolveFn baseDir normalizedPath
    match fs.realpathFn baseDir with
    | none =>
      if opts.mustExist then .error (.pse ("Path does not exist".toList))
      else
        match fs.realpathFn baseDir with
        | none => .error .otherErr
        | some rb => containmentChecks np fs rb resolvedPath opts
    | some rb =>
      if opts.mustExist then
        match fs.realpathFn resolvedPath with
        | none => .error (.pse ("Path does not exist".toList))
        | some rp => containmentChecks np fs rb rp opts
      else containmentChecks np fs rb resolvedPath opts

end PathSecurity

/-! ## Task queue

Modelled from the spec: the implementation `src/core/task-queue.ts` is
not in the source tree (only its test suite is), so the queue is
modelled from the specification, sections 3 and 4.C, corroborated by the
test suite `tests/core/task-queue.test.ts`. -/

namespace TaskQueue

/-- Task priority (spec section 3). -/
inductive Priority where
  | high
  | medium
  | low
  deriving Repr, DecidableEq

/-- Priority rank: `high = 3, medium = 2, low = 1` (spec section 3,
Queue state). -/
def priorityRank : Priority → Nat
  | .high => 3
  | .medium => 2
  | .low => 1

/-- Task status (spec section 3). -/
inductive TaskStatus where
  | pending
  | running
  | completed
  | failed
  deriving Repr, DecidableEq

/-- Modelled from the spec: a task record (spec section 3), with
`createdAt` an epoch-milliseconds value and `updatedAt` omitted (no
claim mentions it). -/
structure Task where
  id : String
  description : String
  mode : String
  priority : Priority
  dependencies : List String
  status : TaskStatus
  createdAt : Nat
  deriving Repr, DecidableEq

/-- The queue contents in insertion order; the spec's mapping `id → Task`
is an insertion-ordered JS `Map`. -/
def Queue : Type := List Task

/-- Modelled from the spec: a dependency id is satisfied iff it resolves
within the queue to a task in `completed` status (spec section 4.C,
dependency gating). -/
def depSatisfied (q : List Task) (d : String) : Bool :=
  q.any (fun u => decide (u.id = d) && decide (u.status = TaskStatus.completed))

/-- Modelled from the spec: a task is eligible iff its status is
`pending` and every declared dependency is satisfied; missing ids and
non-completed predecessors both render it ineligible (spec section
4.C). -/
def eligible (q : List Task) (t : Task) : Bool :=
  decide (t.status = TaskStatus.pending) && t.dependencies.all (depSatisfied q)

/-- Strict selection preference: higher priority rank first, ties broken
by earlier `createdAt` (spec section 4.C, `getNext`). -/
def betterThan (a b : Task) : Bool :=
  decide (priorityRank b.priority < priorityRank a.priority ∨
    (priorityRank a.priority = priorityRank b.priority ∧
      a.createdAt < b.createdAt))

/-- Pick the preferred task from a list, keeping the earliest-added task
on full ties. -/
def pickBest : List Task → Option Task
  | [] => none
  | t :: ts =>
    match pickBest ts with
    | none => some t
    | some b => if betterThan b t then some b else some t

/-- A task value with its status replaced by `running`. -/
def asRunning (t : Task) : Task :=
  ⟨t.id, t.description, t.mode, t.priority, t.dependencies,
   TaskStatus.running, t.createdAt⟩

/-- Transition the task with the given id to `running`. -/
def setRunning (q : List Task) (id : String) : List Task :=
  q.map (fun u => if u.id = id then asRunning u else u)

/-- Modelled from the spec: `getNext` selects among eligible tasks the
one with highest priority rank, ties broken by earliest `createdAt`,
transitions it to `running` and returns it; with no eligible task it
returns `null` and leaves the queue unchanged (spec section 4.C).  The
function is total: the queue never throws, in particular not on
dependency cycles. -/
def getNext (q : List Task) : Option Task × List Task :=
  match pickBest (q.filter (eligible q)) with
  | none => (none, q)
  | some t => (some (asRunning t), setRunning q t.id)

/-- Iterate `getNext`, collecting the returned values. -/
def getNextIter (q : List Task) : Nat → List (Option Task) × List Task
  | 0 => ([], q)
  | n + 1 =>
    let s := getNext q
    let r := getNextIter s.2 n
    (s.1 :: r.1, r.2)

end TaskQueue

/-! ## Memory manager

Modelled from the spec: the implementation `src/core/memory-manager.ts`
is not in the source tree (only its test suite is), so the store is
modelled from the specification, sections 3, 4.D and 6, corroborated by
the test suite `tests/core/memory-manager.test.ts`. -/

namespace MemoryManager

/-- Entry type (spec section 3). -/
inductive EntryType where
  | knowledge
  | result
  | error
  | context
  deriving Repr, DecidableEq

/-- Modelled from the spec: a memory entry (spec section 3).  `content`
is kept as its stringified form (the stable serialization the spec
requires is applied before storage in this model, so summary truncation
and search operate uniformly, as the spec demands). -/
structure MemoryEntry where
  id : String
  agentId : String
  timestamp : Nat
  type : EntryType
  content : String
  tags : List String
  deriving Repr, DecidableEq

/-- Modelled from the spec: the in-memory map `agentId → ordered list of
entries` (insertion-ordered), plus a counter backing fresh id
generation. -/
structure MemoryState where
  entries : List (String × List MemoryEntry)
  nextId : Nat
  deriving Repr, DecidableEq

/-- A fresh, empty store. -/
def emptyState : MemoryState := ⟨[], 0⟩

/-- Fresh entry id from the store-internal counter. -/
def idGen (n : Nat) : String := "entry-" ++ toString n

/-- Append an entry to the given agent's list, creating the key on first
use. -/
def appendEntry : List (String × List MemoryEntry) → String → MemoryEntry →
    List (String × List MemoryEntry)
  | [], agentId, e => [(agentId, [e])]
  | (a, l) :: rest, agentId, e =>
    if a = agentId then (a, l ++ [e]) :: rest
    else (a, l) :: appendEntry rest agentId e

/-- Modelled from the spec: `store({agentId, type, content, tags})`
creates an entry with a freshly generated id and the current timestamp
and appends it to the per-agent list (spec section 4.D; the debounced
flush and eviction triggers are separate operations). -/
def store (st : MemoryState) (agentId : String) (type : EntryType)
    (content : String) (tags : List String) (now : Nat) : MemoryState :=
  let e : MemoryEntry := ⟨idGen st.nextId, agentId, now, type, content, tags⟩
  ⟨appendEntry st.entries agentId e, st.nextId + 1⟩

/-- All entries in insertion order (per-agent lists in key-creation
order). -/
def allEntries (st : MemoryState) : List MemoryEntry :=
  st.entries.flatMap (fun p => p.2)

/-- Modelled from the spec: `search(query, tags?)` does a
case-insensitive substring match against the stringified content,
intersects tag sets when `tags` is given, returns matches in insertion
order, and returns no entries on an empty query (spec sections 4.D
and 9). -/
def search (st : MemoryState) (query : String)
    (tags : Option (List String)) : List MemoryEntry :=
  if query = "" then []
  else
    (allEntries st).filter (fun e =>
      containsSub (lowerList e.content.toList) (lowerList query.toList) &&
      (match tags with
       | none => true
       | some ts => ts.any (fun tg => e.tags.contains tg)))

/-- Summary of an entry's stringified content: truncate to 200
characters with an ellipsis suffix when truncation occurred (spec
section 4.D, `getContext`).  The summary string is kept as its character
list. -/
def summarize (c : String) : List Char :=
  if 200 < c.toList.length then c.toList.take 200 ++ "...".toList
  else c.toList

/-- Timestamp-descending comparison used by `getContext`. -/
def tsDesc (a b : MemoryEntry) : Prop := b.timestamp ≤ a.timestamp

instance : DecidableRel tsDesc := fun a b => Nat.decLe b.timestamp a.timestamp

instance : IsTotal MemoryEntry tsDesc :=
  ⟨fun a b => Nat.le_total b.timestamp a.timestamp⟩

instance : IsTrans MemoryEntry tsDesc :=
  ⟨fun _ _ _ h1 h2 => Nat.le_trans h2 h1⟩

/-- Modelled from the spec: `getContext(mode)` selects entries whose
tags contain the mode, sorts them by timestamp descending (stably),
takes the first 10, and yields `{type, summary}` pairs; `[]` on no match
(spec section 4.D). -/
def getContext (st : MemoryState) (mode : String) :
    List (EntryType × List Char) :=
  let sel := (allEntries st).filter (fun e => e.tags.contains mode)
  let sorted := sel.insertionSort tsDesc
  (sorted.take 10).map (fun e => (e.type, summarize e.content))

/-- Modelled from the spec: timestamps are persisted as strings and
coerced back to date values on load (spec section 6; ISO-8601 in the
source).  The calendar formatting itself is outside the shallow
embedding; it is modelled by an injective decimal digit encoding with an
explicit decoder. -/
def encodeTimestamp (n : Nat) : List Char :=
  (Nat.digits 10 n).map Nat.digitChar

/-- Decode a persisted timestamp string back to a date value. -/
def decodeTimestamp (s : List Char) : Nat :=
  Nat.ofDigits 10 (s.map (fun c => c.toNat - 48))

/-- A memory entry as serialized into the on-disk JSON document:
identical shape except the timestamp is a string. -/
structure PersistedEntry where
  id : String
  agentId : String
  timestamp : List Char
  type : EntryType
  content : String
  tags : List String
  deriving Repr, DecidableEq

/-- Serialization of one entry for `flush`. -/
def persistEntry (e : MemoryEntry) : PersistedEntry :=
  ⟨e.id, e.agentId, encodeTimestamp e.timestamp, e.type, e.content, e.tags⟩

/-- Deserialization of one entry for `initialize`, coercing the
timestamp back to a date value. -/
def revive (p : PersistedEntry) : MemoryEntry :=
  ⟨p.id, p.agentId, decodeTimestamp p.timestamp, p.type, p.content, p.tags⟩

/-- Modelled from the spec: `flush()` writes the whole map as a single
JSON document whose keys are agent ids and whose values are entry
arrays, timestamps serialized as strings (spec sections 4.D and 6). -/
def flush (st : MemoryState) : List (String × List PersistedEntry) :=
  st.entries.map (fun p => (p.1, p.2.map persistEntry))

/-- Modelled from the spec: `initialize()` on an existing, well-formed
file loads it, coercing timestamps back to date values (spec section
4.D). -/
def initializeStore (doc : List (String × List PersistedEntry)) : MemoryState :=
  ⟨doc.map (fun p => (p.1, p.2.map revive)), 0⟩

end MemoryManager

/-! ## Generic list lemmas -/

/-- If `p` implies `q` pointwise, filtering by `p` yields at most as many
elements as filtering by `q`. -/
theorem length_filter_le_of_imp {α : Type} (p q : α → Bool)
    (l : List α) (h : ∀ a, p a = true → q a = true) :
    (l.filter p).length ≤ (l.filter q).length := by
  induction l with
  | nil => simp
  | cons a t ih =>
    by_cases hp : p a = true
    · simp [List.filter_cons, hp, h a hp]
      omega
    · simp only [List.filter_cons]
      rw [Bool.not_eq_true] at hp
      rw [hp]
      by_cases hq : q a = true
      · simp [hq]; omega
      · rw [Bool.not_eq_true] at hq
        rw [hq]
        exact ih

/-- Splitting by `dropWhile`: the list is a dropped prefix, all of whose
elements satisfy the predicate, followed by the remaining suffix. -/
theorem dropWhile_decomposition {α : Type} (p : α → Bool) (l : List α) :
    ∃ d, l = d ++ l.dropWhile p ∧ ∀ a ∈ d, p a = true := by
  induction l with
  | nil => exact ⟨[], rfl, by simp⟩
  | cons a t ih =>
    by_cases hp : p a = true
    · obtain ⟨d, hd, hall⟩ := ih
      refine ⟨a :: d, ?_, ?_⟩
      · simp [List.dropWhile_cons, hp]
        exact hd
      · intro x hx
        rcases List.mem_cons.mp hx with h | h
        · exact h ▸ hp
        · exact hall x h
    · refine ⟨[], ?_, by simp⟩
      rw [Bool.not_eq_true] at hp
      simp [List.dropWhile_cons, hp]

/-- Dropping a prefix with `dropWhile` never lengthens the list. -/
theorem length_dropWhile_le' {α : Type} (p : α → Bool) (l : List α) :
    (l.dropWhile p).length ≤ l.length := by
  induction l with
  | nil => simp
  | cons a t ih =>
    by_cases hp : p a = true
    · simp [List.dropWhile_cons, hp]
      omega
    · rw [Bool.not_eq_true] at hp
      simp [List.dropWhile_cons, hp]

/-- Prefix containment is reflexive for the executable `isPrefixOf`. -/
theorem isPrefixOf_self (l : List Char) : l.isPrefixOf l = true := by
  induction l with
  | nil => rfl
  | cons a t ih => simp [List.isPrefixOf, ih]

/-! ## Claim C3: retry behaviour of `RateLimiter.execute` -/

namespace RateLimiter

/-- Behaviour of the retry loop from an arbitrary recursion depth: at
least one and at most `k + 1` attempts are made, the back-off delays are
exactly `retryDelayMs * 2 ^ attempt` for the consecutive attempts that
retried, and the returned failure is the verbatim error of the final
attempt. -/
theorem executeAux_spec {α : Type} (cfg : RateLimiter.RLConfig)
    (fn : Nat → Except JSError α) (rc k : Nat) :
    1 ≤ (executeAux cfg fn rc k).2.1 ∧
    (executeAux cfg fn rc k).2.1 ≤ k + 1 ∧
    (executeAux cfg fn rc k).2.2 =
      (List.range ((executeAux cfg fn rc k).2.1 - 1)).map
        (fun j => cfg.retryDelayMs * 2 ^ (rc + j)) ∧
    (∀ e, (executeAux cfg fn rc k).1 = .error e →
      fn (rc + ((executeAux cfg fn rc k).2.1 - 1)) = .error e) := by
  induction k generalizing rc with
  | zero =>
    cases h : fn rc with
    | ok a =>
      simp only [executeAux, h]
      refine ⟨by simp, by simp, by simp, ?_⟩
      intro e he
      simp at he
    | error e =>
      simp only [executeAux, h]
      refine ⟨by simp, by simp, by simp, ?_⟩
      intro e' he'
      simp only [Except.error.injEq] at he'
      subst he'
      simpa using h
  | succ k ih =>
    cases h : fn rc with
    | ok a =>
      simp only [executeAux, h]
      refine ⟨by simp, by simp, by simp, ?_⟩
      intro e he
      simp at he
    | error e =>
      by_cases hrl : isRateLimitError e = true
      · obtain ⟨ih1, ih2, ih3, ih4⟩ := ih (rc + 1)
        simp only [executeAux, h, hrl, if_true]
        obtain ⟨n, hn⟩ : ∃ n, (executeAux cfg fn (rc + 1) k).2.1 = n + 1 :=
          ⟨(executeAux cfg fn (rc + 1) k).2.1 - 1, by omega⟩
        refine ⟨by simp, by omega, ?_, ?_⟩
        · show cfg.retryDelayMs * 2 ^ rc :: (executeAux cfg fn (rc + 1) k).2.2 =
            (List.range ((executeAux cfg fn (rc + 1) k).2.1 + 1 - 1)).map
              (fun j => cfg.retryDelayMs * 2 ^ (rc + j))
          rw [ih3, hn]
          simp only [Nat.add_sub_cancel, List.range_succ_eq_map, List.map_cons,
            List.map_map, Nat.add_zero]
          congr 1
          apply List.map_congr_left
          intro j _
          simp only [Function.comp_apply]
          have harith : rc + Nat.succ j = rc + 1 + j := by omega
          rw [harith]
        · intro e' he'
          have := ih4 e' he'
          have harith : rc + ((executeAux cfg fn (rc + 1) k).2.1 + 1 - 1) =
              rc + 1 + ((executeAux cfg fn (rc + 1) k).2.1 - 1) := by omega
          rw [harith]
          exact this
      · rw [Bool.not_eq_true] at hrl
        simp only [executeAux, h, hrl, Bool.false_eq_true, if_false]
        refine ⟨by simp, by simp, by simp, ?_⟩
        intro e' he'
        simp only [Except.error.injEq] at he'
        subst he'
        simpa using h

/-- Claim C3 (corrected): for every function `f`,
`RateLimiter.execute(f)` propagates a failure of `f` unchanged when the
failure is not rate-limit-classified; when the failure's message
contains any of 'rate limit', 'quota exceeded', '429', 'too many
requests' (case-insensitive), it waits `retryDelayMs * 2^attempt` before
each retry and makes at most `maxRetries + 1` total attempts — the
initial attempt plus up to `maxRetries` retries — before the error
propagates. -/
theorem execute_retry_spec {α : Type} (cfg : RateLimiter.RLConfig)
    (fn : Nat → Except JSError α) :
    (∀ e, fn 0 = .error e → isRateLimitError e = false →
      executeRL cfg fn = (.error e, 1, [])) ∧
    (executeRL cfg fn).2.1 ≤ cfg.maxRetries + 1 ∧
    (executeRL cfg fn).2.2 =
      (List.range ((executeRL cfg fn).2.1 - 1)).map
        (fun j => cfg.retryDelayMs * 2 ^ j) ∧
    (∀ e, (executeRL cfg fn).1 = .error e →
      fn ((executeRL cfg fn).2.1 - 1) = .error e) := by
  obtain ⟨h1, h2, h3, h4⟩ := executeAux_spec cfg fn 0 cfg.maxRetries
  refine ⟨?_, h2, ?_, ?_⟩
  · intro e he hrl
    unfold executeRL
    cases hk : cfg.maxRetries with
    | zero => simp [executeAux, he]
    | succ k => simp [executeAux, he, hrl]
  · show (executeAux cfg fn 0 cfg.maxRetries).2.2 =
      (List.range ((executeAux cfg fn 0 cfg.maxRetries).2.1 - 1)).map
        (fun j => cfg.retryDelayMs * 2 ^ j)
    rw [h3]
    apply List.map_congr_left
    intro j _
    simp
  · intro e he
    have := h4 e he
    simpa using this

/-- Witness for C3's theorem: a non-rate-limit failure at the default
configuration propagates unchanged after a single attempt. -/
theorem execute_retry_spec_witness :
    executeRL ⟨60, 60000, 3, 1000⟩
        (fun _ => (.error (JSError.errObj ("boom".toList)) : Except JSError Unit)) =
      (.error (JSError.errObj ("boom".toList)), 1, []) :=
  (execute_retry_spec ⟨60, 60000, 3, 1000⟩
      (fun _ => (.error (JSError.errObj ("boom".toList)) : Except JSError Unit))).1
    (JSError.errObj ("boom".toList)) rfl (by decide)

/-- Counterexample to C3 as stated: with `maxRetries = 3` and a function
that always fails with a '429' message, `execute` makes four total
attempts, not at most three. -/
theorem execute_retry_counterexample :
    (executeRL ⟨60, 60000, 3, 1000⟩
        (fun _ => (.error (JSError.errObj ("429".toList)) : Except JSError Unit))).2.1 = 4 ∧
    ¬ ((executeRL ⟨60, 60000, 3, 1000⟩
        (fun _ => (.error (JSError.errObj ("429".toList)) : Except JSError Unit))).2.1 ≤ 3) := by
  constructor <;> decide

/-! ## Claim C2: sliding-window bound of sequential `checkLimit` calls -/

/-- The cleanup phase drops a prefix of expired timestamps: every
dropped timestamp is at least `windowMs` old (quick path) or older
(full path), hence not within any window still containing `now`. -/
theorem cleanedRequests_split (cfg : RLConfig) (st : RLState) (now : Nat) :
    ∃ d, st.requests = d ++ cleanedRequests cfg st now ∧
      ∀ s ∈ d, ¬ now < s + cfg.windowMs := by
  unfold cleanedRequests
  by_cases hf : st.lastCleanup + cleanupInterval < now
  · rw [if_pos hf]
    obtain ⟨d, hd, hall⟩ := dropWhile_decomposition
      (fun s => decide (s + cfg.windowMs < now)) st.requests
    refine ⟨d, hd, ?_⟩
    intro s hs
    have := hall s hs
    rw [decide_eq_true_eq] at this
    omega
  · rw [if_neg hf]
    obtain ⟨d, hd, hall⟩ := dropWhile_decomposition
      (fun s => decide (s + cfg.windowMs ≤ now)) st.requests
    refine ⟨d, hd, ?_⟩
    intro s hs
    have := hall s hs
    rw [decide_eq_true_eq] at this
    omega

/-- The cleaned buffer is sorted whenever the buffer is. -/
theorem cleanedRequests_sorted (cfg : RLConfig) (st : RLState) (now : Nat)
    (hs : st.requests.Pairwise (· ≤ ·)) :
    (cleanedRequests cfg st now).Pairwise (· ≤ ·) := by
  obtain ⟨d, hd, _⟩ := cleanedRequests_split cfg st now
  rw [hd] at hs
  exact (List.pairwise_append.mp hs).2.1

/-- Under the invariant, the cleanup phase at any later time brings the
buffer length back to at most `maxRequests`: a would-be overflow entry
is expired by then and sits at the front of the sorted buffer. -/
theorem cleanedRequests_length_le (cfg : RLConfig) (st : RLState)
    (tl now : Nat)
    (hs : st.requests.Pairwise (· ≤ ·))
    (hoc : st.requests.length ≤ cfg.maxRequests + 1)
    (hoc2 : st.requests.length = cfg.maxRequests + 1 →
      st.lastCleanup = tl ∧ ∃ b ∈ st.requests, b + cfg.windowMs ≤ tl)
    (hle : tl ≤ now) :
    (cleanedRequests cfg st now).length ≤ cfg.maxRequests := by
  by_cases hlen : st.requests.length = cfg.maxRequests + 1
  · obtain ⟨hlceq, b, hbmem, hbold⟩ := hoc2 hlen
    cases hreq : st.requests with
    | nil => rw [hreq] at hlen; simp at hlen
    | cons h t =>
      have hhb : h ≤ b := by
        rw [hreq] at hbmem hs
        rcases List.mem_cons.mp hbmem with rfl | hbt
        · exact le_refl b
        · exact (List.pairwise_cons.mp hs).1 b hbt
      have hhold : h + cfg.windowMs ≤ now :=
        le_trans (le_trans (by omega) hbold) hle
      have htlen : t.length = cfg.maxRequests := by
        rw [hreq] at hlen
        simpa using hlen
      unfold cleanedRequests
      by_cases hf : st.lastCleanup + cleanupInterval < now
      · rw [if_pos hf]
        have hlt : h + cfg.windowMs < now := by
          have h10 : (10000 : Nat) ≤ cleanupInterval := by
            unfold cleanupInterval
            omega
          omega
        unfold cleanupOldRequests
        rw [hreq, List.dropWhile_cons, if_pos (by simpa using hlt)]
        calc (t.dropWhile _).length ≤ t.length := length_dropWhile_le' _ t
          _ = cfg.maxRequests := htlen
      · rw [if_neg hf]
        unfold quickPurge
        rw [hreq, List.dropWhile_cons, if_pos (by simpa using hhold)]
        calc (t.dropWhile _).length ≤ t.length := length_dropWhile_le' _ t
          _ = cfg.maxRequests := htlen
  · have hlen' : st.requests.length ≤ cfg.maxRequests := by omega
    unfold cleanedRequests
    by_cases hf : st.lastCleanup + cleanupInterval < now <;>
      [rw [if_pos hf]; rw [if_neg hf]] <;>
      [exact le_trans (length_dropWhile_le' _ _) hlen';
       exact le_trans (length_dropWhile_le' _ _) hlen']

/-- After the quick cleanup every surviving timestamp is still within
the window; on the full-cleanup path `lastCleanup` becomes `now`. -/
theorem cleanedRequests_fresh_or_full (cfg : RLConfig) (st : RLState)
    (now : Nat) (hs : st.requests.Pairwise (· ≤ ·)) :
    (∀ s ∈ cleanedRequests cfg st now, now < s + cfg.windowMs) ∨
      newLastCleanup st now = now := by
  unfold cleanedRequests newLastCleanup
  by_cases hf : st.lastCleanup + cleanupInterval < now
  · rw [if_pos hf, if_pos hf]
    exact Or.inr rfl
  · rw [if_neg hf, if_neg hf]
    left
    unfold quickPurge
    have aux : ∀ l : List Nat, l.Pairwise (· ≤ ·) →
        ∀ s ∈ l.dropWhile (fun s => decide (s + cfg.windowMs ≤ now)),
          now < s + cfg.windowMs := by
      intro l
      induction l with
      | nil => intro _; simp
      | cons h t ih =>
        intro hl
        have hpc := List.pairwise_cons.mp hl
        by_cases hph : h + cfg.windowMs ≤ now
        · rw [List.dropWhile_cons, if_pos (by simpa using hph)]
          exact ih hpc.2
        · rw [List.dropWhile_cons, if_neg (by simpa using hph)]
          intro s hsm
          rcases List.mem_cons.mp hsm with rfl | hst
          · omega
          · have := hpc.1 s hst
            omega
    exact aux st.requests hs

/-- The updated `lastCleanup` never exceeds the iteration time. -/
theorem newLastCleanup_le (st : RLState) (tl now : Nat)
    (hlc : st.lastCleanup ≤ tl) (hle : tl ≤ now) :
    newLastCleanup st now ≤ now := by
  unfold newLastCleanup
  by_cases hf : st.lastCleanup + cleanupInterval < now
  · rw [if_pos hf]
  · rw [if_neg hf]
    omega

/-- Appending a registration at `now` preserves the sliding-window
bound, provided fewer than `maxRequests` of the registered timestamps
are still within a window that can contain `now`. -/
theorem slidingWindowBound_append (cfg : RLConfig) (hist : List Nat)
    (now : Nat) (hwp : slidingWindowBound cfg hist)
    (hrec : (hist.filter (fun s => decide (now < s + cfg.windowMs))).length + 1 ≤
      cfg.maxRequests) :
    slidingWindowBound cfg (hist ++ [now]) := by
  intro t
  unfold windowCount
  rw [List.filter_append, List.length_append]
  by_cases hin : t ≤ now ∧ now < t + cfg.windowMs
  · have h1 : (hist.filter
        (fun s => decide (t ≤ s ∧ s < t + cfg.windowMs))).length ≤
        (hist.filter (fun s => decide (now < s + cfg.windowMs))).length := by
      apply length_filter_le_of_imp
      intro a ha
      rw [decide_eq_true_eq] at ha
      rw [decide_eq_true_eq]
      omega
    have h2 : (([now] : List Nat).filter
        (fun s => decide (t ≤ s ∧ s < t + cfg.windowMs))).length ≤ 1 := by
      by_cases hc : (t ≤ now ∧ now < t + cfg.windowMs)
      · simp [List.filter_cons, hc]
      · simp [List.filter_cons, hc]
    omega
  · have hz : (([now] : List Nat).filter
        (fun s => decide (t ≤ s ∧ s < t + cfg.windowMs))) = [] := by
      simp [List.filter_cons, hin]
    rw [hz]
    have := hwp t
    unfold windowCount at this
    simpa using this

/-- The history's still-in-window registrations are exactly those of the
cleaned buffer: everything else was either purged earlier (at time at
most `tl`) or dropped by this iteration's cleanup, in both cases at
least `windowMs` old. -/
theorem recent_hist_eq_recent_cleaned (cfg : RLConfig) (st : RLState)
    (hist : List Nat) (tl now : Nat)
    (hp : ∃ p, hist = p ++ st.requests ∧ ∀ s ∈ p, s + cfg.windowMs ≤ tl)
    (hle : tl ≤ now) :
    hist.filter (fun s => decide (now < s + cfg.windowMs)) =
      (cleanedRequests cfg st now).filter
        (fun s => decide (now < s + cfg.windowMs)) := by
  obtain ⟨p, hph, hpold⟩ := hp
  obtain ⟨d, hd, hdstale⟩ := cleanedRequests_split cfg st now
  rw [hph, hd, List.filter_append, List.filter_append]
  have hp0 : p.filter (fun s => decide (now < s + cfg.windowMs)) = [] := by
    rw [List.filter_eq_nil_iff]
    intro s hs
    have := hpold s hs
    simp only [decide_eq_true_eq]
    omega
  have hd0 : d.filter (fun s => decide (now < s + cfg.windowMs)) = [] := by
    rw [List.filter_eq_nil_iff]
    intro s hs
    have := hdstale s hs
    simp only [decide_eq_true_eq]
    omega
  rw [hp0, hd0]
  simp

/-- Preservation of the invariant by a suspending iteration: the state
keeps the cleaned buffer, nothing is registered. -/
theorem inv_after_wait (cfg : RLConfig) (st : RLState) (hist : List Nat)
    (tl now : Nat) (hinv : RLInv cfg st hist tl) (hle : tl ≤ now)
    (hcap : (cleanedRequests cfg st now).length ≤ cfg.maxRequests) :
    RLInv cfg ⟨cleanedRequests cfg st now, newLastCleanup st now⟩ hist now := by
  obtain ⟨p, hph, hpold⟩ := hinv.purged
  obtain ⟨d, hd, hdstale⟩ := cleanedRequests_split cfg st now
  refine ⟨⟨p ++ d, ?_, ?_⟩, ?_, ?_, ?_, hinv.window, by simpa using le_trans hcap (by omega), ?_⟩
  · rw [hph, hd, List.append_assoc]
  · intro s hs
    rcases List.mem_append.mp hs with h | h
    · exact le_trans (hpold s h) hle
    · have := hdstale s h
      omega
  · exact cleanedRequests_sorted cfg st now hinv.sorted
  · intro s hs
    have hmem : s ∈ st.requests := by
      rw [hd]
      exact List.mem_append.mpr (Or.inr hs)
    exact le_trans (hinv.ubound s hmem) hle
  · exact newLastCleanup_le st tl now hinv.lcle hle
  · intro hcontra
    simp only at hcontra
    omega

/-- Preservation of the invariant by a registering iteration: the
cleaned buffer is extended with `now`, which is also appended to the
history. -/
theorem inv_after_push (cfg : RLConfig)
    (st : RLState) (hist : List Nat) (tl now : Nat)
    (hinv : RLInv cfg st hist tl) (hle : tl ≤ now)
    (hcap : (cleanedRequests cfg st now).length ≤ cfg.maxRequests)
    (hsd : (cleanedRequests cfg st now).length < cfg.maxRequests ∨
      ∃ o t', cleanedRequests cfg st now = o :: t' ∧ ¬ now < o + cfg.windowMs) :
    RLInv cfg ⟨cleanedRequests cfg st now ++ [now], newLastCleanup st now⟩
      (hist ++ [now]) now := by
  obtain ⟨p, hph, hpold⟩ := hinv.purged
  obtain ⟨d, hd, hdstale⟩ := cleanedRequests_split cfg st now
  have hub : ∀ s ∈ cleanedRequests cfg st now, s ≤ now := by
    intro s hs
    have hmem : s ∈ st.requests := by
      rw [hd]
      exact List.mem_append.mpr (Or.inr hs)
    exact le_trans (hinv.ubound s hmem) hle
  have hreccount : ((cleanedRequests cfg st now).filter
      (fun s => decide (now < s + cfg.windowMs))).length + 1 ≤ cfg.maxRequests := by
    rcases hsd with hlt | ⟨o, t', heq, hno⟩
    · have := List.length_filter_le (fun s => decide (now < s + cfg.windowMs))
        (cleanedRequests cfg st now)
      omega
    · rw [heq, List.filter_cons, if_neg (by simpa using hno)]
      have := List.length_filter_le (fun s => decide (now < s + cfg.windowMs)) t'
      have hlen : (cleanedRequests cfg st now).length = t'.length + 1 := by
        rw [heq]
        rfl
      omega
  refine ⟨⟨p ++ d, ?_, ?_⟩, ?_, ?_, ?_, ?_, ?_, ?_⟩
  · rw [hph, hd]
    simp [List.append_assoc]
  · intro s hs
    rcases List.mem_append.mp hs with h | h
    · exact le_trans (hpold s h) hle
    · have := hdstale s h
      omega
  · rw [List.pairwise_append]
    refine ⟨cleanedRequests_sorted cfg st now hinv.sorted, by simp, ?_⟩
    intro a ha b hb
    rw [List.mem_singleton] at hb
    subst hb
    exact hub a ha
  · intro s hs
    rcases List.mem_append.mp hs with h | h
    · exact hub s h
    · rw [List.mem_singleton] at h
      omega
  · exact newLastCleanup_le st tl now hinv.lcle hle
  · have hrec := recent_hist_eq_recent_cleaned cfg st hist tl now
      ⟨p, hph, hpold⟩ hle
    apply slidingWindowBound_append cfg hist now hinv.window
    rw [hrec]
    exact hreccount
  · simp only [List.length_append, List.length_singleton]
    omega
  · intro hcontra
    simp only [List.length_append, List.length_singleton] at hcontra
    have hcl : (cleanedRequests cfg st now).length = cfg.maxRequests := by omega
    rcases hsd with hlt | ⟨o, t', heq, hno⟩
    · omega
    · rcases cleanedRequests_fresh_or_full cfg st now hinv.sorted with hfresh | hfull
      · exfalso
        have := hfresh o (by rw [heq]; exact List.mem_cons_self o t')
        exact hno this
      · refine ⟨hfull, o, ?_, by omega⟩
        rw [heq]
        exact List.mem_append.mpr (Or.inl (List.mem_cons_self o t'))

/-- Reduction: with the cleaned buffer strictly under the ceiling, the
iteration registers `now`. -/
theorem checkLimitStep_push_of_lt (cfg : RLConfig) (st : RLState)
    (now : Nat)
    (hlt : (cleanedRequests cfg st now).length < cfg.maxRequests) :
    checkLimitStep cfg st now =
      (⟨cleanedRequests cfg st now ++ [now], newLastCleanup st now⟩,
        some now) := by
  unfold checkLimitStep
  rw [if_neg (by omega)]

/-- Reduction: with an empty cleaned buffer the iteration registers
`now` (also when `maxRequests = 0`, via the JS `NaN` comparison). -/
theorem checkLimitStep_empty (cfg : RLConfig) (st : RLState) (now : Nat)
    (hm : cleanedRequests cfg st now = []) :
    checkLimitStep cfg st now =
      (⟨cleanedRequests cfg st now ++ [now], newLastCleanup st now⟩,
        some now) := by
  unfold checkLimitStep
  by_cases hbr : cfg.maxRequests ≤ (cleanedRequests cfg st now).length
  · rw [if_pos hbr, hm]
  · rw [if_neg hbr]

/-- Reduction: at the ceiling with an unexpired oldest entry the
iteration suspends. -/
theorem checkLimitStep_wait (cfg : RLConfig) (st : RLState) (now o : Nat)
    (t' : List Nat) (hm : cleanedRequests cfg st now = o :: t')
    (hbr : cfg.maxRequests ≤ (cleanedRequests cfg st now).length)
    (hw : now < o + cfg.windowMs) :
    checkLimitStep cfg st now =
      (⟨cleanedRequests cfg st now, newLastCleanup st now⟩, none) := by
  unfold checkLimitStep
  rw [if_pos hbr, hm]
  simp [hw]

/-- Reduction: at the ceiling with the oldest entry exactly expired
(only reachable after a full cleanup) the iteration registers `now`
without suspending. -/
theorem checkLimitStep_boundary_push (cfg : RLConfig) (st : RLState)
    (now o : Nat) (t' : List Nat)
    (hm : cleanedRequests cfg st now = o :: t')
    (hbr : cfg.maxRequests ≤ (cleanedRequests cfg st now).length)
    (hw : ¬ now < o + cfg.windowMs) :
    checkLimitStep cfg st now =
      (⟨cleanedRequests cfg st now ++ [now], newLastCleanup st now⟩,
        some now) := by
  unfold checkLimitStep
  rw [if_pos hbr, hm]
  simp [hw]

/-- Preservation of the invariant by one `checkLimit` iteration at any
time `now` not before the previous iteration. -/
theorem checkLimitStep_preserves (cfg : RLConfig)
    (hM : 1 ≤ cfg.maxRequests) (st : RLState) (hist : List Nat)
    (tl now : Nat) (hinv : RLInv cfg st hist tl) (hle : tl ≤ now) :
    RLInv cfg (checkLimitStep cfg st now).1
      (hist ++ ((checkLimitStep cfg st now).2).toList) now := by
  have hcap := cleanedRequests_length_le cfg st tl now hinv.sorted
    hinv.oclen hinv.ocover hle
  cases hm : cleanedRequests cfg st now with
  | nil =>
    rw [checkLimitStep_empty cfg st now hm]
    exact inv_after_push cfg st hist tl now hinv hle hcap
      (Or.inl (by rw [hm]; simpa using hM))
  | cons o t' =>
    by_cases hbr : cfg.maxRequests ≤ (cleanedRequests cfg st now).length
    · by_cases hw : now < o + cfg.windowMs
      · rw [checkLimitStep_wait cfg st now o t' hm hbr hw]
        simpa using inv_after_wait cfg st hist tl now hinv hle hcap
      · rw [checkLimitStep_boundary_push cfg st now o t' hm hbr hw]
        exact inv_after_push cfg st hist tl now hinv hle hcap
          (Or.inr ⟨o, t', hm, hw⟩)
    · rw [checkLimitStep_push_of_lt cfg st now (by omega)]
      exact inv_after_push cfg st hist tl now hinv hle hcap
        (Or.inl (by omega))

/-- Unfolding of a trace by one iteration. -/
theorem runTrace_cons (cfg : RLConfig) (st : RLState) (t : Nat)
    (ts : List Nat) :
    runTrace cfg st (t :: ts) =
      ((runTrace cfg (checkLimitStep cfg st t).1 ts).1,
        ((checkLimitStep cfg st t).2).toList ++
          (runTrace cfg (checkLimitStep cfg st t).1 ts).2) := by
  rw [runTrace]

/-- The invariant propagates along any trace of iterations at
non-decreasing clock values. -/
theorem runTrace_inv (cfg : RLConfig) (hM : 1 ≤ cfg.maxRequests)
    (times : List Nat) :
    ∀ (st : RLState) (hist : List Nat) (tl : Nat),
      RLInv cfg st hist tl → List.Chain (· ≤ ·) tl times →
      ∃ tl', RLInv cfg (runTrace cfg st times).1
        (hist ++ (runTrace cfg st times).2) tl' := by
  induction times with
  | nil =>
    intro st hist tl hinv _
    exact ⟨tl, by simpa [runTrace] using hinv⟩
  | cons t ts ih =>
    intro st hist tl hinv hchain
    rw [List.chain_cons] at hchain
    have hinv' := checkLimitStep_preserves cfg hM st hist tl t hinv hchain.1
    obtain ⟨tl', h⟩ := ih (checkLimitStep cfg st t).1
      (hist ++ ((checkLimitStep cfg st t).2).toList) t hinv' hchain.2
    refine ⟨tl', ?_⟩
    rw [runTrace_cons]
    simpa [List.append_assoc] using h

/-- Claim C2 (corrected): across any sequence of sequential
`checkLimit`/`execute` iterations on a `RateLimiter` whose
`maxRequests` is at least 1, the number of registered request
timestamps lying within any sliding half-open window of `windowMs`
milliseconds never exceeds `maxRequests` at any observation point.
Each iteration happens at a clock value not before the previous one;
`execute` registers only through `checkLimit`, so its calls are covered
by the same traces. -/
theorem checkLimit_sliding_window (cfg : RLConfig)
    (hM : 1 ≤ cfg.maxRequests) (times : List Nat)
    (hchain : List.Chain (· ≤ ·) 0 times) :
    slidingWindowBound cfg (runTrace cfg initState times).2 := by
  have hinv0 : RLInv cfg initState [] 0 := by
    refine ⟨⟨[], rfl, by simp⟩, by simp [initState], by simp [initState],
      le_refl 0, ?_, by simp [initState], ?_⟩
    · intro t
      simp [windowCount]
    · intro h
      simp [initState] at h
  obtain ⟨tl', hinv'⟩ := runTrace_inv cfg hM times initState [] 0 hinv0 hchain
  have hw := hinv'.window
  simpa using hw

/-- Witness for C2's theorem: a burst of four calls against a
2-per-second limiter. -/
theorem checkLimit_sliding_window_witness :
    slidingWindowBound ⟨2, 1000, 3, 1000⟩
      (runTrace ⟨2, 1000, 3, 1000⟩ initState [0, 0, 5, 1000]).2 :=
  checkLimit_sliding_window ⟨2, 1000, 3, 1000⟩ (by decide) [0, 0, 5, 1000]
    (List.Chain.cons (by omega) (List.Chain.cons (by omega)
      (List.Chain.cons (by omega) (List.Chain.cons (by omega)
        List.Chain.nil))))

/-- Counterexample to C2 as stated: a `RateLimiter` constructed with
`maxRequests = 0` still registers a timestamp on every call — with an
empty buffer, `requests[0]` is `undefined`, the wait-time comparison is
false on `NaN`, and the push happens — so one valid call produces a
window holding 1 > 0 timestamps. -/
theorem checkLimit_sliding_window_counterexample :
    List.Chain (· ≤ ·) 0 [5] ∧
    ¬ slidingWindowBound ⟨0, 1000, 3, 1000⟩
        (runTrace ⟨0, 1000, 3, 1000⟩ initState [5]).2 := by
  constructor
  · exact List.Chain.cons (by omega) List.Chain.nil
  · intro h
    exact absurd (h 5) (by decide)

/-! ## Claim C5: purge and suspension behaviour of one `checkLimit` call -/

/-- On a sorted buffer, dropping an age-monotone prefix predicate is the
same as filtering it out everywhere. -/
theorem dropWhile_eq_filter_not (p : Nat → Bool) (l : List Nat)
    (hs : l.Pairwise (· ≤ ·))
    (hmono : ∀ a b, a ≤ b → p b = true → p a = true) :
    l.dropWhile p = l.filter (fun s => !p s) := by
  induction l with
  | nil => rfl
  | cons h t ih =>
    have hpc := List.pairwise_cons.mp hs
    by_cases hph : p h = true
    · rw [List.dropWhile_cons, if_pos hph, List.filter_cons]
      rw [show (!p h) = false by simp [hph]]
      simp only [Bool.false_eq_true, if_false]
      exact ih hpc.2
    · rw [Bool.not_eq_true] at hph
      rw [List.dropWhile_cons, if_neg (by simp [hph]), List.filter_cons]
      rw [show (!p h) = true by simp [hph]]
      simp only [if_true]
      have hall : t.filter (fun s => !p s) = t := by
        rw [List.filter_eq_self]
        intro a ha
        have hle := hpc.1 a ha
        by_cases hpa : p a = true
        · exact absurd (hmono h a hle hpa) (by simp [hph])
        · simp [hpa]
      rw [hall]

/-- A completed `checkLimit` call registers exactly one timestamp: each
suspension registers nothing, the final iteration pushes once. -/
theorem checkLimitRun_regs (cfg : RLConfig) :
    ∀ (fuel : Nat) (st : RLState) (now : Nat) (st' : RLState)
      (regs : List Nat),
      checkLimitRun cfg fuel st now = some (st', regs) → ∃ r, regs = [r] := by
  intro fuel
  induction fuel with
  | zero =>
    intro st now st' regs h
    simp [checkLimitRun] at h
  | succ k ih =>
    intro st now st' regs h
    cases hstep : checkLimitStep cfg st now with
    | mk st1 opt =>
      cases opt with
      | some r =>
        rw [checkLimitRun, hstep] at h
        simp only [Option.some.injEq, Prod.mk.injEq] at h
        exact ⟨r, h.2.symm⟩
      | none =>
        rw [checkLimitRun, hstep] at h
        dsimp only at h
        cases hreq : st1.requests with
        | nil =>
          rw [hreq] at h
          simp at h
        | cons o t =>
          rw [hreq] at h
          exact ih st1 (o + cfg.windowMs) st' regs h

/-- Claim C5 (corrected): each `checkLimit` iteration first purges
expired timestamps — those with `s + windowMs < now` when a full
cleanup is due (more than 10 s since the last one), those with
`s + windowMs ≤ now` otherwise; if the remaining count reaches
`maxRequests` and the oldest survivor is still inside the window
(`now < oldest + windowMs`), it suspends until `oldest + windowMs` and
re-checks; otherwise it appends `now` and returns, so every completed
call registers exactly one new timestamp. -/
theorem checkLimit_call_spec (cfg : RLConfig) (st : RLState) (now : Nat)
    (hs : st.requests.Pairwise (· ≤ ·)) :
    (cleanedRequests cfg st now =
      if st.lastCleanup + cleanupInterval < now
      then st.requests.filter (fun s => decide (now ≤ s + cfg.windowMs))
      else st.requests.filter (fun s => decide (now < s + cfg.windowMs))) ∧
    ((checkLimitStep cfg st now).2 = none ↔
      (cfg.maxRequests ≤ (cleanedRequests cfg st now).length ∧
        ∃ o t', cleanedRequests cfg st now = o :: t' ∧
          now < o + cfg.windowMs)) ∧
    ((checkLimitStep cfg st now).2 = none →
      (checkLimitStep cfg st now).1 =
        ⟨cleanedRequests cfg st now, newLastCleanup st now⟩) ∧
    ((checkLimitStep cfg st now).2 ≠ none →
      checkLimitStep cfg st now =
        (⟨cleanedRequests cfg st now ++ [now], newLastCleanup st now⟩,
          some now)) ∧
    (∀ fuel st' regs, checkLimitRun cfg fuel st now = some (st', regs) →
      ∃ r, regs = [r]) := by
  refine ⟨?_, ?_, ?_, ?_, fun fuel => checkLimitRun_regs cfg fuel st now⟩
  · unfold cleanedRequests
    by_cases hf : st.lastCleanup + cleanupInterval < now
    · rw [if_pos hf, if_pos hf]
      unfold cleanupOldRequests
      have hmono : ∀ a b : Nat, a ≤ b →
          decide (b + cfg.windowMs < now) = true →
          decide (a + cfg.windowMs < now) = true := by
        intro a b hab hpb
        simp only [decide_eq_true_eq] at hpb ⊢
        omega
      rw [dropWhile_eq_filter_not _ _ hs hmono]
      apply List.filter_congr
      intro a _
      rw [← decide_not]
      exact decide_eq_decide.mpr (by omega)
    · rw [if_neg hf, if_neg hf]
      unfold quickPurge
      have hmono : ∀ a b : Nat, a ≤ b →
          decide (b + cfg.windowMs ≤ now) = true →
          decide (a + cfg.windowMs ≤ now) = true := by
        intro a b hab hpb
        simp only [decide_eq_true_eq] at hpb ⊢
        omega
      rw [dropWhile_eq_filter_not _ _ hs hmono]
      apply List.filter_congr
      intro a _
      rw [← decide_not]
      exact decide_eq_decide.mpr (by omega)
  · constructor
    · intro hnone
      cases hm : cleanedRequests cfg st now with
      | nil =>
        rw [checkLimitStep_empty cfg st now hm] at hnone
        simp at hnone
      | cons o t' =>
        by_cases hbr : cfg.maxRequests ≤ (cleanedRequests cfg st now).length
        · by_cases hw : now < o + cfg.windowMs
          · exact ⟨hm ▸ hbr, o, t', rfl, hw⟩
          · rw [checkLimitStep_boundary_push cfg st now o t' hm hbr hw]
              at hnone
            simp at hnone
        · rw [checkLimitStep_push_of_lt cfg st now (by omega)] at hnone
          simp at hnone
    · rintro ⟨hbr, o, t', hm, hw⟩
      rw [checkLimitStep_wait cfg st now o t' hm hbr hw]
  · intro hnone
    cases hm : cleanedRequests cfg st now with
    | nil =>
      rw [checkLimitStep_empty cfg st now hm] at hnone
      simp at hnone
    | cons o t' =>
      by_cases hbr : cfg.maxRequests ≤ (cleanedRequests cfg st now).length
      · by_cases hw : now < o + cfg.windowMs
        · rw [checkLimitStep_wait cfg st now o t' hm hbr hw, hm]
        · rw [checkLimitStep_boundary_push cfg st now o t' hm hbr hw]
            at hnone
          simp at hnone
      · rw [checkLimitStep_push_of_lt cfg st now (by omega)] at hnone
        simp at hnone
  · intro hsome
    cases hm : cleanedRequests cfg st now with
    | nil =>
      rw [checkLimitStep_empty cfg st now hm, hm]
    | cons o t' =>
      by_cases hbr : cfg.maxRequests ≤ (cleanedRequests cfg st now).length
      · by_cases hw : now < o + cfg.windowMs
        · rw [checkLimitStep_wait cfg st now o t' hm hbr hw] at hsome
          simp at hsome
        · rw [checkLimitStep_boundary_push cfg st now o t' hm hbr hw, hm]
      · rw [checkLimitStep_push_of_lt cfg st now (by omega), hm]

/-- Witness for C5's theorem: a full limiter with an unexpired oldest
entry suspends. -/
theorem checkLimit_call_spec_witness :
    (checkLimitStep ⟨1, 2000, 3, 1000⟩ ⟨[0], 0⟩ 5).2 = none :=
  (checkLimit_call_spec ⟨1, 2000, 3, 1000⟩ ⟨[0], 0⟩ 5 (by simp)).2.1.mpr
    ⟨by decide, 0, [], by decide, by decide⟩

/-- Counterexample to C5 as stated: on the full-cleanup path an entry
aged exactly `windowMs` survives the purge (it is not older than
`now - windowMs`), the remaining count equals `maxRequests`, and yet
the call registers immediately instead of suspending and re-checking —
reachable from a fresh limiter with `maxRequests = 1`,
`windowMs = 20000` by calls at times 0 and 20000. -/
theorem checkLimit_call_counterexample :
    (runTrace ⟨1, 20000, 3, 1000⟩ initState [0]).1 = ⟨[0], 0⟩ ∧
    1 ≤ (cleanedRequests ⟨1, 20000, 3, 1000⟩ ⟨[0], 0⟩ 20000).length ∧
    (checkLimitStep ⟨1, 20000, 3, 1000⟩ ⟨[0], 0⟩ 20000).2 = some 20000 ∧
    (checkLimitStep ⟨1, 20000, 3, 1000⟩ ⟨[0], 0⟩ 20000).1.requests =
      [0, 20000] := by
  refine ⟨by decide, by decide, by decide, by decide⟩

end RateLimiter

/-! ## Claim C8: `Validator.validateTaskDescription` -/

namespace Validator

/-- A repeated non-matching character survives `dropWhile`. -/
theorem dropWhile_replicate_of_neg {α : Type} (p : α → Bool) (a : α)
    (h : p a = false) (n : Nat) :
    (List.replicate n a).dropWhile p = List.replicate n a := by
  cases n with
  | zero => rfl
  | succ m => simp [List.replicate_succ, List.dropWhile_cons, h]

/-- Trimming a run of 'a's is the identity. -/
theorem jsTrim_replicate_a (n : Nat) :
    jsTrim (List.replicate n 'a') = List.replicate n 'a' := by
  unfold jsTrim
  rw [dropWhile_replicate_of_neg _ _ (by decide), List.reverse_replicate,
    dropWhile_replicate_of_neg _ _ (by decide), List.reverse_replicate]

/-- A suffix scan fails on a repeated character on which the matcher
always fails. -/
theorem anySuffix_replicate_false (p : List Char → Bool) (c : Char)
    (h0 : p [] = false) (hc : ∀ l, p (c :: l) = false) :
    ∀ n, anySuffix p (List.replicate n c) = false := by
  intro n
  induction n with
  | zero => simpa [anySuffix] using h0
  | succ m ih => simp [List.replicate_succ, anySuffix, hc, ih]

/-- Substring search fails on a repeated character when the pattern
starts with a different character. -/
theorem containsSub_replicate_false (c p0 : Char) (pr : List Char)
    (hne : (p0 == c) = false) :
    ∀ n, containsSub (List.replicate n c) (p0 :: pr) = false := by
  intro n
  induction n with
  | zero => simp [containsSub, List.isPrefixOf]
  | succ m ih =>
    simp only [List.replicate_succ, containsSub, List.isPrefixOf, hne,
      Bool.false_and, Bool.false_or]
    exact ih

/-- The `<script>` matcher fails at a suffix starting with 'a'. -/
theorem scriptAt_cons_a (l : List Char) : scriptAt ('a' :: l) = false := by
  simp [scriptAt, show "<script".toList = '<' :: "script".toList from rfl,
    List.isPrefixOf]

/-- The `eval(` matcher fails at a suffix starting with 'a'. -/
theorem evalAt_cons_a (l : List Char) : evalAt ('a' :: l) = false := by
  simp [evalAt, show "eval".toList = 'e' :: "val".toList from rfl,
    List.isPrefixOf]

/-- The `function(` matcher fails at a suffix starting with 'a'. -/
theorem functionAt_cons_a (l : List Char) : functionAt ('a' :: l) = false := by
  simp [functionAt, show "function".toList = 'f' :: "unction".toList from rfl,
    List.isPrefixOf]

/-- A run of 'a's matches none of the injection patterns. -/
theorem hasSuspiciousPattern_replicate_a (n : Nat) :
    hasSuspiciousPattern (List.replicate n 'a') = false := by
  unfold hasSuspiciousPattern lowerList
  rw [List.map_replicate, show Char.toLower 'a' = 'a' from rfl]
  rw [anySuffix_replicate_false scriptAt 'a' (by decide) scriptAt_cons_a n,
    anySuffix_replicate_false evalAt 'a' (by decide) evalAt_cons_a n,
    anySuffix_replicate_false functionAt 'a' (by decide) functionAt_cons_a n,
    show "javascript:".toList = 'j' :: "avascript:".toList from rfl,
    show "data:text/html".toList = 'd' :: "ata:text/html".toList from rfl,
    containsSub_replicate_false 'a' 'j' _ (by decide) n,
    containsSub_replicate_false 'a' 'd' _ (by decide) n]
  rfl

/-- Claim C8: `validateTaskDescription` raises `ValidationError` iff the
input is not a non-empty string, or its trimmed form is empty, exceeds
10 000 characters, or matches one of the injection patterns; otherwise
it returns the trimmed description.  In particular a trimmed length of
exactly 10 000 is accepted and 10 001 is rejected. -/
theorem validateTaskDescription_spec (d : List Char) :
    ((∃ msg, validateTaskDescription d = .error msg) ↔
      (d = [] ∨ (jsTrim d).length = 0 ∨ 10000 < (jsTrim d).length ∨
        hasSuspiciousPattern (jsTrim d) = true)) ∧
    (∀ r, validateTaskDescription d = .ok r → r = jsTrim d) ∧
    validateTaskDescription (List.replicate 10000 'a') =
      .ok (List.replicate 10000 'a') ∧
    validateTaskDescription (List.replicate 10001 'a') =
      .error ("Task description cannot exceed 10,000 characters".toList) := by
  refine ⟨?_, ?_, ?_, ?_⟩
  · by_cases hd : d = [] <;>
      by_cases h0 : (jsTrim d).length = 0 <;>
        by_cases hlen : 10000 < (jsTrim d).length <;>
          by_cases hp : hasSuspiciousPattern (jsTrim d) = true <;>
            simp [validateTaskDescription, hd, h0, hlen, hp]
  · intro r hr
    by_cases hd : d = [] <;>
      by_cases h0 : (jsTrim d).length = 0 <;>
        by_cases hlen : 10000 < (jsTrim d).length <;>
          by_cases hp : hasSuspiciousPattern (jsTrim d) = true <;>
            (simp [validateTaskDescription, hd, h0, hlen, hp] at hr
             try exact hr.symm)
  · have hne : List.replicate 10000 'a' ≠ [] := by
      intro h
      have hlen := congrArg List.length h
      rw [List.length_replicate, List.length_nil] at hlen
      exact absurd hlen (by decide)
    unfold validateTaskDescription
    rw [if_neg hne, jsTrim_replicate_a, List.length_replicate,
      if_neg (by decide : ¬(10000 = 0)), if_neg (by decide : ¬(10000 < 10000)),
      hasSuspiciousPattern_replicate_a]
    rfl
  · have hne : List.replicate 10001 'a' ≠ [] := by
      intro h
      have hlen := congrArg List.length h
      rw [List.length_replicate, List.length_nil] at hlen
      exact absurd hlen (by decide)
    unfold validateTaskDescription
    rw [if_neg hne, jsTrim_replicate_a, List.length_replicate,
      if_neg (by decide : ¬(10001 = 0)), if_pos (by decide : 10000 < 10001)]

/-- Witness for C8's theorem: the empty description is rejected, and a
plain short description is returned exactly as its trimmed form. -/
theorem validateTaskDescription_spec_witness :
    (∃ msg, validateTaskDescription [] = .error msg) ∧
    (['h', 'i'] : List Char) = jsTrim ['h', 'i'] :=
  ⟨(validateTaskDescription_spec []).1.mpr (Or.inl rfl),
   (validateTaskDescription_spec ['h', 'i']).2.1 ['h', 'i'] rfl⟩

end Validator

/-! ## Claim C10: output alphabet of `Validator.sanitizeString` -/

/-- A suffix of an appended list is a suffix of the right part, or the
whole right part preceded by a non-empty suffix of the left part. -/
theorem suffix_append_cases {α : Type} (a b s : List α) (h : s <:+ a ++ b) :
    s <:+ b ∨ ∃ a', a' <:+ a ∧ a' ≠ [] ∧ s = a' ++ b := by
  induction a with
  | nil => left; simpa using h
  | cons x xs ih =>
    rw [List.cons_append] at h
    rcases List.suffix_cons_iff.mp h with h1 | h2
    · right
      exact ⟨x :: xs, List.suffix_refl _, by simp, by simpa using h1⟩
    · rcases ih h2 with h3 | ⟨a', ha1, ha2, ha3⟩
      · left; exact h3
      · right
        exact ⟨a', ha1.trans (List.suffix_cons x xs), ha2, ha3⟩

namespace Validator

/-- Every ampersand-headed suffix of an escape block, continued by any
tail, begins an entity. -/
theorem escapeChar_amp_suffix (c : Char) (a' rest : List Char)
    (ha : a' <:+ escapeChar c) (hh : a'.head? = some '&') :
    startsEntity (a' ++ rest) := by
  by_cases h1 : c = '<'
  · subst h1
    rw [(by decide : escapeChar '<' = "&lt;".toList)] at ha
    have key : ∀ s ∈ ("&lt;".toList).tails, s.head? = some '&' →
        s = "&lt;".toList := by decide
    have ha' := key a' ((List.mem_tails _ _).mpr ha) hh
    exact Or.inl (ha' ▸ List.prefix_append _ _)
  · by_cases h2 : c = '>'
    · subst h2
      rw [(by decide : escapeChar '>' = "&gt;".toList)] at ha
      have key : ∀ s ∈ ("&gt;".toList).tails, s.head? = some '&' →
          s = "&gt;".toList := by decide
      have ha' := key a' ((List.mem_tails _ _).mpr ha) hh
      exact Or.inr (Or.inl (ha' ▸ List.prefix_append _ _))
    · by_cases h3 : c = '&'
      · subst h3
        rw [(by decide : escapeChar '&' = "&amp;".toList)] at ha
        have key : ∀ s ∈ ("&amp;".toList).tails, s.head? = some '&' →
            s = "&amp;".toList := by decide
        have ha' := key a' ((List.mem_tails _ _).mpr ha) hh
        exact Or.inr (Or.inr (Or.inl (ha' ▸ List.prefix_append _ _)))
      · by_cases h4 : c = dquote
        · subst h4
          rw [(by decide : escapeChar dquote = "&quot;".toList)] at ha
          have key : ∀ s ∈ ("&quot;".toList).tails, s.head? = some '&' →
              s = "&quot;".toList := by decide
          have ha' := key a' ((List.mem_tails _ _).mpr ha) hh
          exact Or.inr (Or.inr (Or.inr (Or.inl (ha' ▸ List.prefix_append _ _))))
        · by_cases h5 : c = squote
          · subst h5
            rw [(by decide : escapeChar squote = "&#x27;".toList)] at ha
            have key : ∀ s ∈ ("&#x27;".toList).tails, s.head? = some '&' →
                s = "&#x27;".toList := by decide
            have ha' := key a' ((List.mem_tails _ _).mpr ha) hh
            exact Or.inr (Or.inr (Or.inr (Or.inr (ha' ▸ List.prefix_append _ _))))
          · have hblock : escapeChar c = [c] := by
              simp [escapeChar, h1, h2, h3, h4, h5]
            rw [hblock] at ha
            have hmem : a' ∈ ([c].tails) := (List.mem_tails _ _).mpr ha
            simp [List.tails] at hmem
            rcases hmem with h | h
            · subst h
              simp at hh
              exact absurd hh h3
            · subst h
              simp at hh

/-- Every ampersand-headed suffix of a concatenation of escape blocks
begins an entity. -/
theorem amp_suffix_flatMap (l : List Char) :
    ∀ s, s <:+ l.flatMap escapeChar → s.head? = some '&' → startsEntity s := by
  induction l with
  | nil =>
    intro s hs hh
    simp only [List.flatMap_nil] at hs
    rw [List.suffix_nil.mp hs] at hh
    simp at hh
  | cons c t ih =>
    intro s hs hh
    rw [List.flatMap_cons] at hs
    rcases suffix_append_cases _ _ _ hs with h1 | ⟨a', ha1, ha2, ha3⟩
    · exact ih s h1 hh
    · subst ha3
      have hh' : a'.head? = some '&' := by
        cases a' with
        | nil => exact absurd rfl ha2
        | cons x xs => simpa using hh
      exact escapeChar_amp_suffix c a' _ ha1 hh'

/-- Character-level properties of one escape block: given a
non-control source character, the block contains no control character
and none of the four directly forbidden specials. -/
theorem escapeChar_chars (c : Char) (hc : isCtrlRemoved c = false) :
    ∀ x ∈ escapeChar c, isCtrlRemoved x = false ∧ x ≠ '<' ∧ x ≠ '>' ∧
      x ≠ dquote ∧ x ≠ squote := by
  intro x hx
  by_cases h1 : c = '<'
  · subst h1
    rw [(by decide : escapeChar '<' = "&lt;".toList)] at hx
    exact (by decide : ∀ y ∈ "&lt;".toList, isCtrlRemoved y = false ∧
      y ≠ '<' ∧ y ≠ '>' ∧ y ≠ dquote ∧ y ≠ squote) x hx
  · by_cases h2 : c = '>'
    · subst h2
      rw [(by decide : escapeChar '>' = "&gt;".toList)] at hx
      exact (by decide : ∀ y ∈ "&gt;".toList, isCtrlRemoved y = false ∧
        y ≠ '<' ∧ y ≠ '>' ∧ y ≠ dquote ∧ y ≠ squote) x hx
    · by_cases h3 : c = '&'
      · subst h3
        rw [(by decide : escapeChar '&' = "&amp;".toList)] at hx
        exact (by decide : ∀ y ∈ "&amp;".toList, isCtrlRemoved y = false ∧
          y ≠ '<' ∧ y ≠ '>' ∧ y ≠ dquote ∧ y ≠ squote) x hx
      · by_cases h4 : c = dquote
        · subst h4
          rw [(by decide : escapeChar dquote = "&quot;".toList)] at hx
          exact (by decide : ∀ y ∈ "&quot;".toList, isCtrlRemoved y = false ∧
            y ≠ '<' ∧ y ≠ '>' ∧ y ≠ dquote ∧ y ≠ squote) x hx
        · by_cases h5 : c = squote
          · subst h5
            rw [(by decide : escapeChar squote = "&#x27;".toList)] at hx
            exact (by decide : ∀ y ∈ "&#x27;".toList, isCtrlRemoved y = false ∧
              y ≠ '<' ∧ y ≠ '>' ∧ y ≠ dquote ∧ y ≠ squote) x hx
          · have hblock : escapeChar c = [c] := by
              simp [escapeChar, h1, h2, h3, h4, h5]
            rw [hblock, List.mem_singleton] at hx
            subst hx
            exact ⟨hc, h1, h2, h4, h5⟩

/-- Claim C10: for every input and `maxLength`, `sanitizeString` returns
the concatenation of the entity-escaped blocks of the truncated,
control-filtered input; the result contains no control character from
the removed set and none of the raw characters `<`, `>`, `"`, `'`, and
every ampersand occurrence in it begins one of the five inserted HTML
entities (so no raw `&` remains); a falsy input yields the empty string,
and the length bound applies before escaping, so the result may exceed
`maxLength`. -/
theorem sanitizeString_spec (s : List Char) (maxLength : Nat) :
    sanitizeString s maxLength =
      ((s.take maxLength).filter (fun c => !isCtrlRemoved c)).flatMap escapeChar ∧
    (∀ x ∈ sanitizeString s maxLength,
      isCtrlRemoved x = false ∧ x ≠ '<' ∧ x ≠ '>' ∧ x ≠ dquote ∧ x ≠ squote) ∧
    (∀ suf, suf <:+ sanitizeString s maxLength → suf.head? = some '&' →
      startsEntity suf) ∧
    1 < (sanitizeString ['&'] 1).length := by
  have heq : sanitizeString s maxLength =
      ((s.take maxLength).filter (fun c => !isCtrlRemoved c)).flatMap escapeChar := by
    unfold sanitizeString
    by_cases h : s = []
    · simp [h]
    · rw [if_neg h]
  refine ⟨heq, ?_, ?_, by decide⟩
  · intro x hx
    rw [heq] at hx
    rcases List.mem_flatMap.mp hx with ⟨c, hc, hxc⟩
    have hcc := List.mem_filter.mp hc
    have hcf : isCtrlRemoved c = false := by
      have := hcc.2
      simpa using this
    exact escapeChar_chars c hcf x hxc
  · intro suf hsuf hh
    rw [heq] at hsuf
    exact amp_suffix_flatMap _ suf hsuf hh

/-- Witness for C10's theorem: sanitizing a single ampersand yields
exactly its entity, whose ampersand-headed suffix begins an entity. -/
theorem sanitizeString_spec_witness :
    startsEntity ("&amp;".toList) :=
  (sanitizeString_spec ['&'] 1000).2.2.1 ("&amp;".toList) (by decide) rfl

end Validator

/-! ## Claim C9: containment of `PathSecurity.resolveSafePath` -/

namespace PathSecurity

/-- The existing-file checks never rewrite the path: a success returns
the real path handed to them. -/
theorem existingFileChecks_ok (np : NodePath) (fs : FsOracle)
    (realPath : List Char) (opts : SafePathOptions) (p : List Char)
    (h : existingFileChecks np fs realPath opts = .ok p) : p = realPath := by
  unfold existingFileChecks at h
  cases hstat : fs.statFn realPath with
  | none => rw [hstat] at h; exact absurd h (by simp)
  | some v =>
    rw [hstat] at h
    obtain ⟨isFile, size⟩ := v
    by_cases hf : isFile = true
    · rw [hf] at h
      simp only [Bool.not_true, Bool.false_eq_true, if_false] at h
      split_ifs at h with h1 h2 h3 h4
      all_goals simp_all
    · rw [Bool.not_eq_true] at hf
      rw [hf] at h
      simp at h

/-- Achieving a non-error result of the containment guard requires the
real path to be the real base directory or to extend it past the
separator, and returns it unchanged. -/
theorem containmentChecks_ok (np : NodePath) (fs : FsOracle)
    (realBaseDir realPath : List Char) (opts : SafePathOptions)
    (p : List Char)
    (h : containmentChecks np fs realBaseDir realPath opts = .ok p) :
    p = realPath ∧
      ((realBaseDir ++ [np.sep]).isPrefixOf realPath = true ∨
        realPath = realBaseDir) := by
  unfold containmentChecks at h
  by_cases hg : (!((realBaseDir ++ [np.sep]).isPrefixOf realPath) &&
      !(realPath = realBaseDir : Bool)) = true
  · rw [if_pos hg] at h
    exact absurd h (by simp)
  · rw [Bool.not_eq_true] at hg
    rw [if_neg (by simp [hg])] at h
    have hdisj : (realBaseDir ++ [np.sep]).isPrefixOf realPath = true ∨
        realPath = realBaseDir := by
      by_cases hp1 : (realBaseDir ++ [np.sep]).isPrefixOf realPath = true
      · exact Or.inl hp1
      · right
        by_cases hp2 : realPath = realBaseDir
        · exact hp2
        · exfalso
          apply Bool.false_ne_true
          rw [← hg]
          simp [hp1, hp2]
    by_cases hm : opts.mustExist = true
    · rw [hm] at h
      simp only [if_true] at h
      exact ⟨existingFileChecks_ok np fs realPath opts p h, hdisj⟩
    · rw [Bool.not_eq_true] at hm
      rw [hm] at h
      simp only [Bool.false_eq_true, if_false, Except.ok.injEq] at h
      exact ⟨h.symm, hdisj⟩

/-- Claim C9: whenever `resolveSafePath` returns a path rather than
raising, the returned path equals the resolved real path of the base
directory or begins with that real base directory followed by the path
separator; it never returns a path outside the base directory, for
every path-module behaviour, filesystem behaviour (including symlink
resolution inside `realpath`) and option set, in particular for
`mustExist = false`. -/
theorem resolveSafePath_containment (np : NodePath) (fs : FsOracle)
    (inputPath baseDir : List Char) (opts : SafePathOptions) (p : List Char)
    (h : resolveSafePath np fs inputPath baseDir opts = .ok p) :
    ∃ rb, fs.realpathFn baseDir = some rb ∧
      (p = rb ∨ (rb ++ [np.sep]).isPrefixOf p = true) := by
  unfold resolveSafePath at h
  by_cases hi : inputPath = []
  · rw [if_pos hi] at h
    exact absurd h (by simp)
  · rw [if_neg hi] at h
    cases hrb : fs.realpathFn baseDir with
    | none =>
      rw [hrb] at h
      by_cases hm : opts.mustExist = true
      · rw [hm] at h
        simp at h
      · rw [Bool.not_eq_true] at hm
        rw [hm] at h
        simp only [Bool.false_eq_true, if_false] at h
        exact absurd h (by simp)
    | some rb =>
      rw [hrb] at h
      refine ⟨rb, rfl, ?_⟩
      by_cases hm : opts.mustExist = true
      · rw [hm] at h
        simp only [if_true] at h
        cases hrp : fs.realpathFn (np.resolveFn baseDir (np.normalizeFn inputPath)) with
        | none => rw [hrp] at h; exact absurd h (by simp)
        | some rp =>
          rw [hrp] at h
          obtain ⟨hpe, hdisj⟩ := containmentChecks_ok np fs rb rp opts p h
          subst hpe
          rcases hdisj with h1 | h2
          · exact Or.inr h1
          · exact Or.inl h2
      · rw [Bool.not_eq_true] at hm
        rw [hm] at h
        simp only [Bool.false_eq_true, if_false] at h
        obtain ⟨hpe, hdisj⟩ := containmentChecks_ok np fs rb _ opts p h
        subst hpe
        rcases hdisj with h1 | h2
        · exact Or.inr h1
        · exact Or.inl h2

/-- Witness for C9's theorem: with an identity path module and a
realpath oracle, resolving the relative name `f` against base `/b`
yields `/b/f`, which extends the real base directory past the
separator. -/
theorem resolveSafePath_containment_witness :
    ∃ rb, (FsOracle.mk some (fun _ => some (true, 0)) (fun _ => true)
        (fun _ => true)).realpathFn ("/b".toList) = some rb ∧
      (("/b/f".toList) = rb ∨
        (rb ++ [(NodePath.mk '/' id (fun b q => b ++ '/' :: q)
          (fun _ => [])).sep]).isPrefixOf ("/b/f".toList) = true) :=
  resolveSafePath_containment
    (NodePath.mk '/' id (fun b q => b ++ '/' :: q) (fun _ => []))
    (FsOracle.mk some (fun _ => some (true, 0)) (fun _ => true) (fun _ => true))
    ("f".toList) ("/b".toList)
    (SafePathOptions.mk false 10485760 none true false)
    ("/b/f".toList) rfl

end PathSecurity

/-! ## Claims C1 and C4: `TaskQueue.getNext` -/

namespace TaskQueue

/-- Unfolding of the selection preference into its ordering
proposition. -/
theorem betterThan_iff (a b : Task) :
    betterThan a b = true ↔
      (priorityRank b.priority < priorityRank a.priority ∨
        (priorityRank a.priority = priorityRank b.priority ∧
          a.createdAt < b.createdAt)) := by
  simp [betterThan]

/-- Negated unfolding of the selection preference. -/
theorem betterThan_eq_false_iff (a b : Task) :
    betterThan a b = false ↔
      ¬ (priorityRank b.priority < priorityRank a.priority ∨
        (priorityRank a.priority = priorityRank b.priority ∧
          a.createdAt < b.createdAt)) := by
  simp [betterThan, decide_eq_false_iff_not]

/-- No task strictly beats itself. -/
theorem betterThan_irrefl (a : Task) : betterThan a a = false := by
  rw [betterThan_eq_false_iff]
  omega

/-- The selection preference is asymmetric. -/
theorem betterThan_asymm (a b : Task) (h : betterThan a b = true) :
    betterThan b a = false := by
  rw [betterThan_iff] at h
  rw [betterThan_eq_false_iff]
  omega

/-- Negated preference is transitive (it is a total preorder). -/
theorem betterThan_neg_trans (a b c : Task) (hab : betterThan a b = false)
    (hbc : betterThan b c = false) : betterThan a c = false := by
  rw [betterThan_eq_false_iff] at hab hbc ⊢
  omega

/-- A picked task is in the candidate list. -/
theorem pickBest_mem (l : List Task) (t : Task) (h : pickBest l = some t) :
    t ∈ l := by
  induction l generalizing t with
  | nil => simp [pickBest] at h
  | cons a s ih =>
    cases hp : pickBest s with
    | none =>
      have hred : pickBest (a :: s) = some a := by rw [pickBest, hp]
      rw [hred] at h
      simp only [Option.some.injEq] at h
      subst h
      exact List.mem_cons_self a s
    | some b =>
      have hred : pickBest (a :: s) =
          if betterThan b a = true then some b else some a := by
        rw [pickBest, hp]
      rw [hred] at h
      by_cases hb : betterThan b a = true
      · rw [if_pos hb] at h
        simp only [Option.some.injEq] at h
        subst h
        exact List.mem_cons.mpr (Or.inr (ih _ hp))
      · rw [if_neg hb] at h
        simp only [Option.some.injEq] at h
        subst h
        exact List.mem_cons_self a s

/-- Nothing is picked exactly from the empty list. -/
theorem pickBest_eq_none_iff (l : List Task) :
    pickBest l = none ↔ l = [] := by
  cases l with
  | nil => simp [pickBest]
  | cons a s =>
    cases hp : pickBest s with
    | none =>
      have hred : pickBest (a :: s) = some a := by rw [pickBest, hp]
      simp [hred]
    | some b =>
      have hred : pickBest (a :: s) =
          if betterThan b a = true then some b else some a := by
        rw [pickBest, hp]
      by_cases hb : betterThan b a = true <;> simp [hred, hb]

/-- No candidate strictly beats the picked task. -/
theorem pickBest_not_beaten (l : List Task) (t : Task)
    (h : pickBest l = some t) : ∀ x ∈ l, betterThan x t = false := by
  induction l generalizing t with
  | nil => simp [pickBest] at h
  | cons a s ih =>
    cases hp : pickBest s with
    | none =>
      have hred : pickBest (a :: s) = some a := by rw [pickBest, hp]
      rw [hred] at h
      simp only [Option.some.injEq] at h
      subst h
      intro x hx
      rcases List.mem_cons.mp hx with rfl | hx'
      · exact betterThan_irrefl x
      · rw [(pickBest_eq_none_iff s).mp hp] at hx'
        exact absurd hx' (List.not_mem_nil x)
    | some b =>
      have hred : pickBest (a :: s) =
          if betterThan b a = true then some b else some a := by
        rw [pickBest, hp]
      rw [hred] at h
      by_cases hb : betterThan b a = true
      · rw [if_pos hb] at h
        simp only [Option.some.injEq] at h
        subst h
        intro x hx
        rcases List.mem_cons.mp hx with rfl | hx'
        · exact betterThan_asymm b x hb
        · exact ih b hp x hx'
      · rw [if_neg hb] at h
        simp only [Option.some.injEq] at h
        subst h
        rw [Bool.not_eq_true] at hb
        intro x hx
        rcases List.mem_cons.mp hx with rfl | hx'
        · exact betterThan_irrefl x
        · exact betterThan_neg_trans x b a (ih b hp x hx') hb

/-- Claim C1: for every queue state, `getNext` returns `null` exactly
when no task is eligible; otherwise it returns the eligible task with
the highest priority rank, ties broken by earliest `createdAt`, and the
returned task's status is `running` immediately after the call, the
queue recording that same transition. -/
theorem getNext_spec (q : List Task) :
    ((getNext q).1 = none ↔ ∀ t ∈ q, eligible q t = false) ∧
    (∀ t, (getNext q).1 = some t →
      ∃ t0, t0 ∈ q ∧ eligible q t0 = true ∧ t = asRunning t0 ∧
        t.status = TaskStatus.running ∧
        (getNext q).2 = setRunning q t0.id ∧
        (∀ u ∈ q, eligible q u = true →
          priorityRank u.priority ≤ priorityRank t0.priority ∧
          (priorityRank u.priority = priorityRank t0.priority →
            t0.createdAt ≤ u.createdAt))) := by
  cases hp : pickBest (q.filter (eligible q)) with
  | none =>
    have hg : getNext q = (none, q) := by
      unfold getNext
      rw [hp]
    rw [hg]
    constructor
    · constructor
      · intro _ t ht
        have hnil := (pickBest_eq_none_iff _).mp hp
        by_contra he
        rw [Bool.not_eq_false] at he
        have hmem : t ∈ q.filter (eligible q) := List.mem_filter.mpr ⟨ht, he⟩
        rw [hnil] at hmem
        exact absurd hmem (List.not_mem_nil t)
      · intro _
        rfl
    · intro t ht
      exact absurd ht (by simp)
  | some t0 =>
    have hg : getNext q = (some (asRunning t0), setRunning q t0.id) := by
      unfold getNext
      rw [hp]
    rw [hg]
    have hmem := pickBest_mem _ _ hp
    have hmemf := List.mem_filter.mp hmem
    constructor
    · constructor
      · intro hc
        exact absurd hc (by simp)
      · intro hall
        exact absurd (hall t0 hmemf.1) (by simp [hmemf.2])
    · intro t ht
      simp only [Option.some.injEq] at ht
      refine ⟨t0, hmemf.1, hmemf.2, ht.symm, by rw [ht.symm]; rfl, rfl, ?_⟩
      intro u hu hue
      have hnb := pickBest_not_beaten _ _ hp u (List.mem_filter.mpr ⟨hu, hue⟩)
      rw [betterThan_eq_false_iff] at hnb
      omega

/-- Witness for C1's theorem: in the queue of the spec's priority
scenario the high-priority task is selected and returned in `running`
status. -/
theorem getNext_spec_witness :
    ∃ t0, t0 ∈ ([⟨"L", "l", "coder", Priority.low, [], TaskStatus.pending, 0⟩,
        ⟨"H", "h", "coder", Priority.high, [], TaskStatus.pending, 1⟩,
        ⟨"M", "m", "coder", Priority.medium, [], TaskStatus.pending, 2⟩] :
          List Task) ∧
      eligible [⟨"L", "l", "coder", Priority.low, [], TaskStatus.pending, 0⟩,
        ⟨"H", "h", "coder", Priority.high, [], TaskStatus.pending, 1⟩,
        ⟨"M", "m", "coder", Priority.medium, [], TaskStatus.pending, 2⟩] t0 = true ∧
      asRunning ⟨"H", "h", "coder", Priority.high, [], TaskStatus.pending, 1⟩ =
        asRunning t0 ∧
      (asRunning ⟨"H", "h", "coder", Priority.high, [], TaskStatus.pending, 1⟩).status =
        TaskStatus.running ∧
      (getNext [⟨"L", "l", "coder", Priority.low, [], TaskStatus.pending, 0⟩,
        ⟨"H", "h", "coder", Priority.high, [], TaskStatus.pending, 1⟩,
        ⟨"M", "m", "coder", Priority.medium, [], TaskStatus.pending, 2⟩]).2 =
        setRunning [⟨"L", "l", "coder", Priority.low, [], TaskStatus.pending, 0⟩,
          ⟨"H", "h", "coder", Priority.high, [], TaskStatus.pending, 1⟩,
          ⟨"M", "m", "coder", Priority.medium, [], TaskStatus.pending, 2⟩] t0.id ∧
      (∀ u ∈ ([⟨"L", "l", "coder", Priority.low, [], TaskStatus.pending, 0⟩,
          ⟨"H", "h", "coder", Priority.high, [], TaskStatus.pending, 1⟩,
          ⟨"M", "m", "coder", Priority.medium, [], TaskStatus.pending, 2⟩] :
            List Task), eligible [⟨"L", "l", "coder", Priority.low, [], TaskStatus.pending, 0⟩,
          ⟨"H", "h", "coder", Priority.high, [], TaskStatus.pending, 1⟩,
          ⟨"M", "m", "coder", Priority.medium, [], TaskStatus.pending, 2⟩] u = true →
          priorityRank u.priority ≤ priorityRank t0.priority ∧
          (priorityRank u.priority = priorityRank t0.priority →
            t0.createdAt ≤ u.createdAt)) :=
  (getNext_spec _).2
    (asRunning ⟨"H", "h", "coder", Priority.high, [], TaskStatus.pending, 1⟩) rfl

/-- With pairwise-distinct ids, a queue member is determined by its
id. -/
theorem unique_by_id (q : List Task)
    (huniq : q.Pairwise (fun a b => a.id ≠ b.id)) (u v : Task)
    (hu : u ∈ q) (hv : v ∈ q) (hid : u.id = v.id) : u = v := by
  induction q with
  | nil => exact absurd hu (List.not_mem_nil u)
  | cons a s ih =>
    have hpc := List.pairwise_cons.mp huniq
    rcases List.mem_cons.mp hu with rfl | hu' <;>
      rcases List.mem_cons.mp hv with rfl | hv'
    · rfl
    · exact absurd hid (hpc.1 v hv')
    · exact absurd hid.symm (hpc.1 u hu')
    · exact ih hpc.2 hu' hv'

/-- In a queue with pairwise-distinct ids, a task depending on the id of
a non-completed task is ineligible. -/
theorem eligible_false_of_dep_not_completed (q : List Task) (x y : Task)
    (huniq : q.Pairwise (fun a b => a.id ≠ b.id)) (hy : y ∈ q)
    (hxy : y.id ∈ x.dependencies)
    (hync : y.status ≠ TaskStatus.completed) :
    eligible q x = false := by
  have hdep : depSatisfied q y.id = false := by
    rw [Bool.eq_false_iff]
    intro hc
    rw [depSatisfied, List.any_eq_true] at hc
    obtain ⟨u, hu, huq⟩ := hc
    rw [Bool.and_eq_true, decide_eq_true_eq, decide_eq_true_eq] at huq
    have huy : u = y := unique_by_id q huniq u y hu hy huq.1
    rw [huy] at huq
    exact hync huq.2
  rw [Bool.eq_false_iff]
  intro he
  rw [eligible, Bool.and_eq_true, List.all_eq_true] at he
  have := he.2 y.id hxy
  rw [hdep] at this
  exact Bool.false_ne_true this

/-- Claim C4: if two tasks in the queue each list the other's id in
their dependencies, then (with distinct ids, neither cycle member
completed, and no other eligible task present) every call of `getNext`
returns `null`, it continues to return `null` indefinitely with the
queue unchanged, and no call throws — `getNext` is a total function
with no error outcome. -/
theorem getNext_cycle_spec (q : List Task) (x y : Task)
    (huniq : q.Pairwise (fun a b => a.id ≠ b.id))
    (hx : x ∈ q) (hy : y ∈ q)
    (hxy : y.id ∈ x.dependencies) (hyx : x.id ∈ y.dependencies)
    (hxnc : x.status ≠ TaskStatus.completed)
    (hync : y.status ≠ TaskStatus.completed)
    (hother : ∀ t ∈ q, t ≠ x → t ≠ y → eligible q t = false) :
    ∀ n, (getNextIter q n).1 = List.replicate n none ∧
      (getNextIter q n).2 = q := by
  have hall : ∀ t ∈ q, eligible q t = false := by
    intro t ht
    by_cases htx : t = x
    · subst htx
      exact eligible_false_of_dep_not_completed q t y huniq hy hxy hync
    · by_cases hty : t = y
      · subst hty
        exact eligible_false_of_dep_not_completed q t x huniq hx hyx hxnc
      · exact hother t ht htx hty
  have hstep : getNext q = (none, q) := by
    have hfil : q.filter (eligible q) = [] := by
      rw [List.filter_eq_nil_iff]
      intro t ht
      rw [hall t ht]
      exact Bool.false_ne_true
    unfold getNext
    rw [hfil]
    rfl
  intro n
  induction n with
  | zero => exact ⟨rfl, rfl⟩
  | succ m ih =>
    have hred : getNextIter q (m + 1) =
        ((getNext q).1 :: (getNextIter (getNext q).2 m).1,
          (getNextIter (getNext q).2 m).2) := by
      rw [getNextIter]
    rw [hred, hstep]
    exact ⟨by rw [ih.1]; rfl, ih.2⟩

/-- Witness for C4's theorem: the spec's cycle scenario with tasks `x`
and `y` depending on each other; three successive `getNext` calls all
return `null` and leave the queue unchanged. -/
theorem getNext_cycle_spec_witness :
    (getNextIter [⟨"x", "dx", "coder", Priority.medium, ["y"],
        TaskStatus.pending, 0⟩,
      ⟨"y", "dy", "coder", Priority.medium, ["x"],
        TaskStatus.pending, 0⟩] 3).1 = List.replicate 3 none ∧
    (getNextIter [⟨"x", "dx", "coder", Priority.medium, ["y"],
        TaskStatus.pending, 0⟩,
      ⟨"y", "dy", "coder", Priority.medium, ["x"],
        TaskStatus.pending, 0⟩] 3).2 =
      [⟨"x", "dx", "coder", Priority.medium, ["y"], TaskStatus.pending, 0⟩,
       ⟨"y", "dy", "coder", Priority.medium, ["x"], TaskStatus.pending, 0⟩] :=
  getNext_cycle_spec _
    ⟨"x", "dx", "coder", Priority.medium, ["y"], TaskStatus.pending, 0⟩
    ⟨"y", "dy", "coder", Priority.medium, ["x"], TaskStatus.pending, 0⟩
    (by simp) (by simp) (by simp) (by decide) (by decide)
    (by decide) (by decide) (by decide) 3

end TaskQueue

/-! ## Claims C6 and C7: `MemoryManager` -/

/-- Substring containment is reflexive. -/
theorem containsSub_self (l : List Char) : containsSub l l = true := by
  cases l with
  | nil => rfl
  | cons c t => simp [containsSub, isPrefixOf_self]

namespace MemoryManager

/-- The digit value of a decimal digit character. -/
theorem digitChar_toNat (d : Nat) (hd : d < 10) :
    (Nat.digitChar d).toNat - 48 = d := by
  interval_cases d <;> rfl

/-- Timestamps round-trip through the persisted string encoding. -/
theorem decodeTimestamp_encodeTimestamp (n : Nat) :
    decodeTimestamp (encodeTimestamp n) = n := by
  unfold decodeTimestamp encodeTimestamp
  rw [List.map_map]
  have hmap : (Nat.digits 10 n).map
      ((fun c => c.toNat - 48) ∘ Nat.digitChar) = Nat.digits 10 n := by
    have hcong : ∀ d ∈ Nat.digits 10 n,
        ((fun c => c.toNat - 48) ∘ Nat.digitChar) d = id d := by
      intro d hd
      have hlt : d < 10 := Nat.digits_lt_base (by norm_num) hd
      simp only [Function.comp_apply, id]
      exact digitChar_toNat d hlt
    rw [List.map_congr_left hcong, List.map_id]
  rw [hmap]
  exact Nat.ofDigits_digits 10 n

/-- Claim C6: storing an entry into a fresh store, flushing, and
re-initializing a store from the flushed document lets `search` with the
entry's content return exactly one entry whose content and timestamp
equal the originals — timestamps survive serialization and are restored
as date values. -/
theorem store_flush_reload_search (agentId : String) (type : EntryType)
    (content : String) (tags : List String) (now : Nat)
    (hne : content ≠ "") :
    ∃ e, search (initializeStore (flush
        (store emptyState agentId type content tags now))) content none =
      [e] ∧ e.content = content ∧ e.timestamp = now := by
  refine ⟨⟨idGen 0, agentId, now, type, content, tags⟩, ?_, rfl, rfl⟩
  have hstate : initializeStore (flush
      (store emptyState agentId type content tags now)) =
      ⟨[(agentId, [⟨idGen 0, agentId, now, type, content, tags⟩])], 0⟩ := by
    simp [store, emptyState, appendEntry, flush, initializeStore,
      persistEntry, revive, decodeTimestamp_encodeTimestamp]
  rw [hstate]
  unfold search
  rw [if_neg hne]
  have hall : allEntries
      ⟨[(agentId, [⟨idGen 0, agentId, now, type, content, tags⟩])], 0⟩ =
      [⟨idGen 0, agentId, now, type, content, tags⟩] := by
    simp [allEntries]
  rw [hall]
  simp [containsSub_self]

/-- Witness for C6's theorem: the spec's round-trip scenario. -/
theorem store_flush_reload_search_witness :
    ∃ e, search (initializeStore (flush
        (store emptyState "A1" EntryType.result "Persistent data" ["test"]
          1700000000000))) "Persistent data" none =
      [e] ∧ e.content = "Persistent data" ∧ e.timestamp = 1700000000000 :=
  store_flush_reload_search "A1" EntryType.result "Persistent data" ["test"]
    1700000000000 (by decide)

/-- Claim C7: `getContext(mode)` returns at most 10 `{type, summary}`
pairs drawn from entries whose tags contain the mode, ordered by
timestamp descending; each summary is the stringified content truncated
to 200 characters with an ellipsis suffix when truncated (length at most
203, ending in "..." exactly on truncation); the empty list results when
no entry matches. -/
theorem getContext_spec (st : MemoryState) (mode : String) :
    (getContext st mode).length ≤ 10 ∧
    ((∀ e ∈ allEntries st, e.tags.contains mode = false) →
      getContext st mode = []) ∧
    (∃ es, es = (((allEntries st).filter
        (fun e => e.tags.contains mode)).insertionSort tsDesc).take 10 ∧
      List.Sorted tsDesc es ∧
      (∀ e ∈ es, e ∈ allEntries st ∧ e.tags.contains mode = true) ∧
      getContext st mode = es.map (fun e => (e.type, summarize e.content)) ∧
      (∀ e ∈ es, (summarize e.content).length ≤ 203 ∧
        (200 < e.content.toList.length →
          summarize e.content = e.content.toList.take 200 ++ "...".toList))) := by
  refine ⟨?_, ?_, ?_⟩
  · unfold getContext
    rw [List.length_map, List.length_take]
    omega
  · intro hnone
    unfold getContext
    have hfil : (allEntries st).filter (fun e => e.tags.contains mode) = [] := by
      rw [List.filter_eq_nil_iff]
      intro e he
      rw [hnone e he]
      exact Bool.false_ne_true
    rw [hfil]
    rfl
  · refine ⟨_, rfl, ?_, ?_, rfl, ?_⟩
    · exact List.Pairwise.sublist (List.take_sublist _ _)
        (List.sorted_insertionSort tsDesc _)
    · intro e he
      have hsorted := List.mem_of_mem_take he
      have hperm := List.perm_insertionSort tsDesc
        ((allEntries st).filter (fun e => e.tags.contains mode))
      have hfil : e ∈ (allEntries st).filter (fun e => e.tags.contains mode) :=
        hperm.subset hsorted
      exact ⟨(List.mem_filter.mp hfil).1, by
        have := (List.mem_filter.mp hfil).2
        simpa using this⟩
    · intro e _
      constructor
      · unfold summarize
        by_cases h : 200 < e.content.toList.length
        · rw [if_pos h]
          rw [List.length_append, List.length_take]
          simp
        · rw [if_neg h]
          omega
      · intro h
        unfold summarize
        rw [if_pos h]

/-- Witness for C7's theorem: an empty store yields the empty
context. -/
theorem getContext_spec_witness :
    getContext emptyState "coder" = [] :=
  (getContext_spec emptyState "coder").2.1
    (fun e he => absurd he (List.not_mem_nil e))

end MemoryManager
